import Mathlib

/- Verification of the generic struct introspection and merge engine of the
   `config` package: a shallow embedding of its reflection-driven value
   universe and of the functions `copyVal`, `merge`, `setDefaults`,
   `getDefaultValue`, `valueFromString`, `find`, `isCorrectLabel`, the typed
   getters, `getFlagInfo` and `bindFlags`, translated from `reflect_util.go`,
   `config.go` and the package sources.

   Modelling conventions:

   * Go runtime values are modelled by the inductive `GoVal`.  Mutable heap
     objects (pointees of pointers, slice backing arrays, map objects) carry a
     numeric identity `id`; two values share mutable state exactly when they
     share an id.  Fresh allocations (`reflect.New`, `reflect.MakeSlice`,
     `reflect.MakeMap`) consume ids from a counter threaded through the
     functions.

   * Struct values carry their field metadata (`FieldInfo`: the declared field
     name and the raw `config`/`yaml`/`json`/`default`/`env` struct tags, the
     empty string standing for an absent tag, exactly as
     `reflect.StructTag.Get` reports it), mirroring how a `reflect.Value`
     always travels with its type information.

   * Kinds not exercised by any claim are omitted from the universe: floating
     point, complex, func and chan kinds, `[]byte` fields, and non-string map
     keys.  `int`/`uint` are modelled with their 64-bit width (the platforms
     the package targets).  Struct types are assumed well-formed as Go would
     guarantee (e.g. the type-assignability check inside `reflect.Value.Set`
     between two values of the same kind is not re-modelled).

   * `reflect.Value.Set` on an unaddressable value panics; addressability is
     threaded through `merge` as the boolean `adr`.  Values extracted with
     `MapIndex` are not addressable; dereferencing a pointer always yields an
     addressable pointee.  Panics are explicit outcomes, never Lean failures.

   * `merge` additionally records the identities of the mutable objects it
     writes through (the `wr` field of its result; `some id` in `loc` names
     the object enclosing the current destination, `none` being the caller's
     root variable, whose writes are not recorded).  This instruments the
     frame claims: writes land only in destination-reachable or freshly
     allocated objects, never in source-only ones.

   * Go map iteration order is unspecified; the model iterates map entries in
     list order.  Entry processing is key-wise independent, so only the order
     of freshly allocated ids depends on this choice.
-/

namespace Config

/- ===== The value universe ===== -/

/-- The integer kinds of the Go reflect package that the engine handles
(`reflect.Int`, `Int8` ... `Uint64`).  `int`/`uint` have native width 64. -/
inductive IKind : Type where
  | i | i8 | i16 | i32 | i64 | u | u8 | u16 | u32 | u64
deriving DecidableEq, Repr

/-- Bit width of an integer kind (native width is 64). -/
def IKind.width : IKind → Nat
  | .i => 64 | .i8 => 8 | .i16 => 16 | .i32 => 32 | .i64 => 64
  | .u => 64 | .u8 => 8 | .u16 => 16 | .u32 => 32 | .u64 => 64

/-- Whether an integer kind is signed. -/
def IKind.signed : IKind → Bool
  | .i | .i8 | .i16 | .i32 | .i64 => true
  | .u | .u8 | .u16 | .u32 | .u64 => false

/-- Static per-field metadata: the declared field name and the raw struct
tags, as `reflect.StructField.Tag.Get` returns them (empty = absent). -/
structure FieldInfo where
  name : String
  cfg : String
  yaml : String
  json : String
  dflt : String
  env : String
deriving DecidableEq, Repr

/-- A Go runtime value as the engine sees it.  `vNilPtr`, `vNilSlice` and
`vNilMap` are the nil values of pointer, slice and map kinds; non-nil
pointers, slices and maps carry the identity of the heap object they
reference.  Struct fields and map entries are kept in declaration/insertion
order. -/
inductive GoVal : Type where
  | vInt (k : IKind) (n : Int)
  | vStr (s : String)
  | vBool (b : Bool)
  | vNilPtr
  | vPtr (id : Nat) (p : GoVal)
  | vStruct (fs : List (FieldInfo × GoVal))
  | vNilSlice
  | vSlice (id : Nat) (es : List GoVal)
  | vArr (es : List GoVal)
  | vNilMap
  | vMap (id : Nat) (es : List (String × GoVal))

/-- The `reflect.Kind` of a value (arrays of any length share kind `Array`,
all struct types share kind `Struct`, and a nil pointer still has kind
`Ptr`). -/
inductive GKind : Type where
  | gI (k : IKind) | gStr | gBool | gPtr | gStruct | gSlice | gArr | gMap
deriving DecidableEq, Repr

/-- `reflect.Value.Kind` on our universe. -/
def kindOf : GoVal → GKind
  | .vInt k _ => .gI k
  | .vStr _ => .gStr
  | .vBool _ => .gBool
  | .vNilPtr => .gPtr
  | .vPtr _ _ => .gPtr
  | .vStruct _ => .gStruct
  | .vNilSlice => .gSlice
  | .vSlice _ _ => .gSlice
  | .vArr _ => .gArr
  | .vNilMap => .gMap
  | .vMap _ _ => .gMap

mutual
/-- Boolean structural equality on values (ids included), used to decide
propositional equality. -/
def geq : GoVal → GoVal → Bool
  | .vInt k n, .vInt k' n' => k == k' && n == n'
  | .vStr s, .vStr s' => s == s'
  | .vBool b, .vBool b' => b == b'
  | .vNilPtr, .vNilPtr => true
  | .vPtr i p, .vPtr j q => i == j && geq p q
  | .vStruct fs, .vStruct gs => geqFields fs gs
  | .vNilSlice, .vNilSlice => true
  | .vSlice i es, .vSlice j ds => i == j && geqList es ds
  | .vArr es, .vArr ds => geqList es ds
  | .vNilMap, .vNilMap => true
  | .vMap i es, .vMap j ds => i == j && geqEntries es ds
  | _, _ => false
termination_by structural v _ => v

/-- Field-list equality. -/
def geqFields : List (FieldInfo × GoVal) → List (FieldInfo × GoVal) → Bool
  | [], [] => true
  | f :: r, g :: t => f.1 == g.1 && geq f.2 g.2 && geqFields r t
  | _, _ => false
termination_by structural l _ => l

/-- Value-list equality. -/
def geqList : List GoVal → List GoVal → Bool
  | [], [] => true
  | v :: r, w :: t => geq v w && geqList r t
  | _, _ => false
termination_by structural l _ => l

/-- Entry-list equality. -/
def geqEntries : List (String × GoVal) → List (String × GoVal) → Bool
  | [], [] => true
  | f :: r, g :: t => f.1 == g.1 && geq f.2 g.2 && geqEntries r t
  | _, _ => false
termination_by structural l _ => l
end

set_option maxHeartbeats 1000000 in
mutual
/-- `geq` decides equality. -/
theorem geq_iff : ∀ a b : GoVal, geq a b = true ↔ a = b
  | .vInt _ _, b => by cases b <;> simp [geq]
  | .vStr _, b => by cases b <;> simp [geq]
  | .vBool _, b => by cases b <;> simp [geq]
  | .vNilPtr, b => by cases b <;> simp [geq]
  | .vPtr _ p, b => by
      have hp := geq_iff p
      cases b <;> simp [geq, hp]
  | .vStruct fs, b => by
      have hf := geqFields_iff fs
      cases b <;> simp [geq, hf]
  | .vNilSlice, b => by cases b <;> simp [geq]
  | .vSlice _ es, b => by
      have he := geqList_iff es
      cases b <;> simp [geq, he]
  | .vArr es, b => by
      have he := geqList_iff es
      cases b <;> simp [geq, he]
  | .vNilMap, b => by cases b <;> simp [geq]
  | .vMap _ es, b => by
      have he := geqEntries_iff es
      cases b <;> simp [geq, he]

/-- `geqFields` decides equality. -/
theorem geqFields_iff : ∀ a b : List (FieldInfo × GoVal), geqFields a b = true ↔ a = b
  | [], b => by cases b <;> simp [geqFields]
  | (fi, fv) :: r, b => by
      have hv := geq_iff fv
      have hr := geqFields_iff r
      cases b with
      | nil => simp [geqFields]
      | cons g t =>
          obtain ⟨gk, gv⟩ := g
          simp [geqFields, hv, hr, Prod.mk.injEq, and_assoc]

/-- `geqList` decides equality. -/
theorem geqList_iff : ∀ a b : List GoVal, geqList a b = true ↔ a = b
  | [], b => by cases b <;> simp [geqList]
  | v :: r, b => by
      have hv := geq_iff v
      have hr := geqList_iff r
      cases b <;> simp [geqList, hv, hr]

/-- `geqEntries` decides equality. -/
theorem geqEntries_iff : ∀ a b : List (String × GoVal), geqEntries a b = true ↔ a = b
  | [], b => by cases b <;> simp [geqEntries]
  | (k, v) :: r, b => by
      have hv := geq_iff v
      have hr := geqEntries_iff r
      cases b with
      | nil => simp [geqEntries]
      | cons g t =>
          obtain ⟨gk, gv⟩ := g
          simp [geqEntries, hv, hr, Prod.mk.injEq, and_assoc]
end

instance : DecidableEq GoVal := fun a b => decidable_of_iff _ (geq_iff a b)

mutual
/-- `reflect.Value.IsZero` (which agrees with the package's DeepEqual-based
`isZero` helper on this universe): zero scalars, nil pointers/slices/maps,
structs with all fields zero, arrays with all elements zero. -/
def isZero : GoVal → Bool
  | .vInt _ n => n == 0
  | .vStr s => s == ""
  | .vBool b => b == false
  | .vNilPtr => true
  | .vPtr _ _ => false
  | .vStruct fs => isZeroFields fs
  | .vNilSlice => true
  | .vSlice _ _ => false
  | .vArr es => isZeroList es
  | .vNilMap => true
  | .vMap _ _ => false

/-- All field values zero. -/
def isZeroFields : List (FieldInfo × GoVal) → Bool
  | [] => true
  | fv :: r => isZero fv.2 && isZeroFields r

/-- All list elements zero. -/
def isZeroList : List GoVal → Bool
  | [] => true
  | v :: r => isZero v && isZeroList r
end

mutual
/-- The zero value of the (Go) type of a given value: what `reflect.New` on
that type dereferences to.  Used to model `reflect.New(vf.Elem().Type())`
inside `merge`. -/
def zeroLike : GoVal → GoVal
  | .vInt k _ => .vInt k 0
  | .vStr _ => .vStr ""
  | .vBool _ => .vBool false
  | .vNilPtr => .vNilPtr
  | .vPtr _ _ => .vNilPtr
  | .vStruct fs => .vStruct (zeroLikeFields fs)
  | .vNilSlice => .vNilSlice
  | .vSlice _ _ => .vNilSlice
  | .vArr es => .vArr (zeroLikeList es)
  | .vNilMap => .vNilMap
  | .vMap _ _ => .vNilMap

/-- Zero value field by field (field metadata is part of the type). -/
def zeroLikeFields : List (FieldInfo × GoVal) → List (FieldInfo × GoVal)
  | [] => []
  | (fi, fv) :: r => (fi, zeroLike fv) :: zeroLikeFields r

/-- Zero value element by element. -/
def zeroLikeList : List GoVal → List GoVal
  | [] => []
  | v :: r => zeroLike v :: zeroLikeList r
end

mutual
/-- Identities of all mutable objects (pointees, slice backings, map objects)
reachable inside a value. -/
def ids : GoVal → List Nat
  | .vPtr i p => i :: ids p
  | .vStruct fs => idsFields fs
  | .vSlice i es => i :: idsList es
  | .vArr es => idsList es
  | .vMap i es => i :: idsEntries es
  | _ => []

/-- Ids inside a field list. -/
def idsFields : List (FieldInfo × GoVal) → List Nat
  | [] => []
  | fv :: r => ids fv.2 ++ idsFields r

/-- Ids inside a value list. -/
def idsList : List GoVal → List Nat
  | [] => []
  | v :: r => ids v ++ idsList r

/-- Ids inside a map entry list. -/
def idsEntries : List (String × GoVal) → List Nat
  | [] => []
  | kv :: r => ids kv.2 ++ idsEntries r
end

mutual
/-- Identities reachable at or below a slice or array element: the objects
whose sharing `copyVal` does not sever, because `reflect.Copy` copies slice
and array elements shallowly. -/
def sids : GoVal → List Nat
  | .vPtr _ p => sids p
  | .vStruct fs => sidsFields fs
  | .vSlice _ es => idsList es
  | .vArr es => idsList es
  | .vMap _ es => sidsEntries es
  | _ => []

/-- Slice-reachable ids inside a field list. -/
def sidsFields : List (FieldInfo × GoVal) → List Nat
  | [] => []
  | fv :: r => sids fv.2 ++ sidsFields r

/-- Slice-reachable ids inside a map entry list. -/
def sidsEntries : List (String × GoVal) → List Nat
  | [] => []
  | kv :: r => sids kv.2 ++ sidsEntries r
end

/-- Every listed id is below the bound (freshness of a counter). -/
def allLt (l : List Nat) (c : Nat) : Bool := l.all (fun i => i < c)

/-- No id occurs in both lists: the two values share no mutable object. -/
def idsDisj (a b : List Nat) : Bool := a.all (fun i => ¬ b.contains i)

/- ===== Map entry helpers (Go map via reflect) ===== -/

/-- `reflect.Value.MapIndex`: the value stored at a key (first occurrence). -/
def mapLookup : List (String × GoVal) → String → Option GoVal
  | [], _ => none
  | (k, v) :: r, key => if k == key then some v else mapLookup r key

/-- `reflect.Value.SetMapIndex`: replace the entry in place, or append. -/
def mapSet : List (String × GoVal) → String → GoVal → List (String × GoVal)
  | [], key, nv => [(key, nv)]
  | (k, v) :: r, key, nv => if k == key then (key, nv) :: r else (k, v) :: mapSet r key nv

/-- Keys of an entry list, in order. -/
def mapKeys (es : List (String × GoVal)) : List String := es.map (·.1)

/- ===== copyVal (reflect_util.go:16-59) ===== -/

mutual
/-- `copyVal`.  Dereferences a pointer argument once, then copies by kind:
arrays and slices get a fresh value/backing with the elements copied
shallowly (`reflect.Copy`), structs are copied field by field with non-nil
pointer fields re-allocated and their pointees copied recursively, maps get a
fresh map object with every entry value copied recursively, and every other
kind is copied by value (`reflect.New` + `Set`; for a value that is still a
pointer after the one dereference this copies the pointer itself, shallowly).
`none` models a panic: copying a nil pointer (`v.Elem().Type()` on an
invalid value), or a map whose entry values are of pointer kind
(`SetMapIndex` is handed a value of the dereferenced pointee type, or the
copy of a nil entry panics first). -/
def copyVal : GoVal → Nat → Option (GoVal × Nat)
  | .vNilPtr, _ => none
  | .vPtr _ (.vPtr j q), c => some (.vPtr j q, c)
  | .vPtr _ .vNilPtr, c => some (.vNilPtr, c)
  | .vPtr _ p, c => copyVal p c
  | .vArr es, c => some (.vArr es, c)
  | .vNilSlice, c => some (.vSlice c [], c + 1)
  | .vSlice _ es, c => some (.vSlice c es, c + 1)
  | .vStruct fs, c =>
      match copyFields fs c with
      | none => none
      | some (fs', c') => some (.vStruct fs', c')
  | .vNilMap, c => some (.vMap c [], c + 1)
  | .vMap _ es, c =>
      match copyEntries es (c + 1) with
      | none => none
      | some (es', c') => some (.vMap c es', c')
  | v, c => some (v, c)
termination_by structural v _ => v

/-- The struct branch of `copyVal`: nil pointer fields are skipped (the copy
keeps the zero value, i.e. nil); a non-nil pointer field is copied by
allocating a fresh pointee and copying the old pointee into it (a pointer to
a pointer, or a pointer to nil, makes `cf.Elem().Set(fieldcopy)` respectively
the inner `copyVal` panic); every other field is copied recursively. -/
def copyFields : List (FieldInfo × GoVal) → Nat → Option (List (FieldInfo × GoVal) × Nat)
  | [], c => some ([], c)
  | (fi, .vNilPtr) :: r, c =>
      match copyFields r c with
      | none => none
      | some (r', c') => some ((fi, .vNilPtr) :: r', c')
  | (_, .vPtr _ (.vPtr _ _)) :: _, _ => none
  | (_, .vPtr _ .vNilPtr) :: _, _ => none
  | (fi, .vPtr _ w) :: r, c =>
      match copyVal w c with
      | none => none
      | some (w', c') =>
        match copyFields r (c' + 1) with
        | none => none
        | some (r', c₂) => some ((fi, .vPtr c' w') :: r', c₂)
  | (fi, fv) :: r, c =>
      match copyVal fv c with
      | none => none
      | some (fv', c') =>
        match copyFields r c' with
        | none => none
        | some (r', c₂) => some ((fi, fv') :: r', c₂)
termination_by structural l _ => l

/-- The map branch of `copyVal`: copy every entry value; entries of pointer
kind make the surrounding `SetMapIndex` (or the inner copy of a nil pointer)
panic. -/
def copyEntries : List (String × GoVal) → Nat → Option (List (String × GoVal) × Nat)
  | [], c => some ([], c)
  | (_, .vNilPtr) :: _, _ => none
  | (_, .vPtr _ _) :: _, _ => none
  | (k, ev) :: r, c =>
      match copyVal ev c with
      | none => none
      | some (ev', c') =>
        match copyEntries r c' with
        | none => none
        | some (r', c₂) => some ((k, ev') :: r', c₂)
termination_by structural l _ => l
end

/- ===== merge (reflect_util.go:65-142) ===== -/

/-- The error outcome of a merge: `errMismatchedTypes` or a runtime panic. -/
inductive MErr : Type where
  | mismatch
  | panicked
deriving DecidableEq, Repr

/-- Result of a merge step: the destination value after the call (partial on
error or panic, exactly as the in-place Go code leaves it), the allocation
counter, the identities of the mutable objects written through, and the
outcome (`none` = normal return). -/
structure MOut where
  dst : GoVal
  cnt : Nat
  wr : List Nat
  err : Option MErr

/-- Like `MOut`, for the field-list and entry-list workers. -/
structure MListOut (α : Type) where
  out : α
  cnt : Nat
  wr : List Nat
  err : Option MErr

mutual
/-- `merge`.  Dereferences each argument one level (`Elem` on a nil pointer
yields an invalid value, so a nil source or destination mismatches anything
except another nil, which reaches `dst.IsZero()` on an invalid value and
panics), compares kinds, and dispatches (`mergeK`).  `adr` says whether the
destination is addressable (`Set` on an unaddressable destination panics,
which is how every value extracted by `MapIndex` behaves); `loc` is the
identity of the mutable object holding the destination (`none` = the
caller's root variable), used to record writes; `c` is the allocation
counter. -/
def merge (adr : Bool) (loc : Option Nat) (dst src : GoVal) (c : Nat) : MOut :=
  match dst, src with
  | .vNilPtr, .vNilPtr => ⟨.vNilPtr, c, [], some .panicked⟩
  | .vNilPtr, _ => ⟨.vNilPtr, c, [], some .mismatch⟩
  | .vPtr di dp, .vNilPtr => ⟨.vPtr di dp, c, [], some .mismatch⟩
  | .vPtr di dp, .vPtr _ sp =>
      let r := mergeK true (some di) dp sp c
      ⟨.vPtr di r.dst, r.cnt, r.wr, r.err⟩
  | .vPtr di dp, s =>
      let r := mergeK true (some di) dp s c
      ⟨.vPtr di r.dst, r.cnt, r.wr, r.err⟩
  | d, .vNilPtr => ⟨d, c, [], some .mismatch⟩
  | d, .vPtr _ sp => mergeK adr loc d sp c
  | d, s => mergeK adr loc d s c
termination_by (sizeOf src, 1)

/-- The kind switch of `merge`, on the dereferenced values: merge structs
field by field, union maps (allocating the destination map first if it is
nil), and for every other kind assign the source to the destination when the
destination is zero. -/
def mergeK (adr : Bool) (loc : Option Nat) (dstD srcD : GoVal) (c : Nat) : MOut :=
  if kindOf dstD ≠ kindOf srcD then ⟨dstD, c, [], some .mismatch⟩
  else
    match dstD, srcD with
    | .vStruct dfs, .vStruct sfs =>
        let r := mergeFields adr loc dfs sfs c
        ⟨.vStruct r.out, r.cnt, r.wr, r.err⟩
    | .vNilMap, .vMap _ sents =>
        if adr then
          let r := mergeEntries c [] sents (c + 1)
          ⟨.vMap c r.out, r.cnt, loc.toList ++ r.wr, r.err⟩
        else ⟨.vNilMap, c, [], some .panicked⟩
    | .vNilMap, .vNilMap =>
        if adr then ⟨.vMap c [], c + 1, loc.toList, none⟩
        else ⟨.vNilMap, c, [], some .panicked⟩
    | .vMap mid dents, .vMap _ sents =>
        let r := mergeEntries mid dents sents c
        ⟨.vMap mid r.out, r.cnt, r.wr, r.err⟩
    | .vMap mid dents, .vNilMap => ⟨.vMap mid dents, c, [], none⟩
    | dd, ss =>
        if isZero dd then
          if adr then ⟨ss, c, loc.toList, none⟩
          else ⟨dd, c, [], some .panicked⟩
        else ⟨dd, c, [], none⟩
termination_by (sizeOf srcD, 0)

/-- The struct branch of `merge`: iterate over the source fields by index
(one more source than destination field panics via `dst.Field(i)`); skip
zero source fields; allocate a fresh pointee for a non-nil pointer source
field whose destination is nil; merge recursively; then `dst.Field(i).Set`
(a panic if the destination is unaddressable, and skipped — leaving a
freshly allocated pointer unattached — when the recursive merge failed). -/
def mergeFields (adr : Bool) (loc : Option Nat)
    (dfs sfs : List (FieldInfo × GoVal)) (c : Nat) :
    MListOut (List (FieldInfo × GoVal)) :=
  match dfs, sfs with
  | dfs, [] => ⟨dfs, c, [], none⟩
  | [], _ :: _ => ⟨[], c, [], some .panicked⟩
  | (dfi, cf) :: drest, (_, .vNilPtr) :: srest =>
      -- a nil source pointer field is zero and skipped (the `vf.IsNil()`
      -- check would skip it as well)
      let r := mergeFields adr loc drest srest c
      ⟨(dfi, cf) :: r.out, r.cnt, r.wr, r.err⟩
  | (dfi, .vNilPtr) :: drest, (_, .vPtr si sp) :: srest =>
      -- non-nil pointer source (never zero), nil destination pointer:
      -- allocate `reflect.New(vf.Elem().Type())` and merge into it
      let r := merge adr loc (.vPtr c (zeroLike sp)) (.vPtr si sp) (c + 1)
      match r.err with
      | some e => ⟨(dfi, .vNilPtr) :: drest, r.cnt, r.wr, some e⟩
      | none =>
        if adr then
          let t := mergeFields adr loc drest srest r.cnt
          ⟨(dfi, r.dst) :: t.out, t.cnt, r.wr ++ loc.toList ++ t.wr, t.err⟩
        else ⟨(dfi, .vNilPtr) :: drest, r.cnt, r.wr, some .panicked⟩
  | (dfi, cf) :: drest, (_, vf) :: srest =>
      if isZero vf then
        let r := mergeFields adr loc drest srest c
        ⟨(dfi, cf) :: r.out, r.cnt, r.wr, r.err⟩
      else
        let r := merge adr loc cf vf c
        match r.err with
        | some e => ⟨(dfi, r.dst) :: drest, r.cnt, r.wr, some e⟩
        | none =>
          if adr then
            let t := mergeFields adr loc drest srest r.cnt
            ⟨(dfi, r.dst) :: t.out, t.cnt, r.wr ++ loc.toList ++ t.wr, t.err⟩
          else ⟨(dfi, r.dst) :: drest, r.cnt, r.wr, some .panicked⟩
termination_by (sizeOf sfs, 2)

/-- The map branch of `merge`: for every source key, a key absent from the
destination gets a deep copy of the source value (re-wrapped in a fresh
pointer via `cp.Addr()` when the value is of pointer kind, and panicking if
the copy does); a key present in both gets a recursive merge of the two
values — through an unaddressable `MapIndex` extraction — followed by
`SetMapIndex` (in-place mutations of pointer or map entry values persist
even on the early error return, since the extracted value shares those
objects with the entry). -/
def mergeEntries (mid : Nat) (dents sents : List (String × GoVal)) (c : Nat) :
    MListOut (List (String × GoVal)) :=
  match sents with
  | [] => ⟨dents, c, [], none⟩
  | (k, sv) :: srest =>
    match mapLookup dents k with
    | none =>
      match copyVal sv c with
      | none => ⟨dents, c, [], some .panicked⟩
      | some (cp, c') =>
        match sv with
        | .vPtr _ _ =>
          let r := mergeEntries mid (mapSet dents k (.vPtr c' cp)) srest (c' + 1)
          ⟨r.out, r.cnt, mid :: r.wr, r.err⟩
        | _ =>
          let r := mergeEntries mid (mapSet dents k cp) srest c'
          ⟨r.out, r.cnt, mid :: r.wr, r.err⟩
    | some dv =>
      let r := merge false none dv sv c
      match r.err with
      | some e => ⟨mapSet dents k r.dst, r.cnt, r.wr, some e⟩
      | none =>
        let t := mergeEntries mid (mapSet dents k r.dst) srest r.cnt
        ⟨t.out, t.cnt, r.wr ++ mid :: t.wr, t.err⟩
termination_by (sizeOf sents, 2)
end

/- ===== Text coercion: valueFromString ===== -/

/-- Accumulating decimal-digit scanner: fails on any non-digit. -/
def digitsGo : List Char → Nat → Option Nat
  | [], acc => some acc
  | ch :: r, acc =>
      if ch.isDigit then digitsGo r (acc * 10 + (ch.toNat - 48)) else none

/-- Value of a non-empty run of decimal digits. -/
def digitsVal : List Char → Option Nat
  | [] => none
  | l => digitsGo l 0

/-- Sign peeling as `strconv.ParseInt` performs it: a leading `+` or `-` is
consumed (recording negativity); anything else is left in place. -/
def peelSign : List Char → Bool × List Char
  | [] => (false, [])
  | c :: r =>
      if c = '+' then (false, r)
      else if c = '-' then (true, r)
      else (false, c :: r)

/-- `strconv.ParseInt(s, 10, bits)`: an optional sign followed by decimal
digits, range-checked for the bit width.  Go clamps the value when it is out
of range, but it also returns `ErrRange` and every caller in this package
then discards the value, so an out-of-range literal is simply `none`. -/
def goParseInt (s : String) (bits : Nat) : Option Int :=
  let p := peelSign s.toList
  match digitsVal p.2 with
  | none => none
  | some n =>
    let v : Int := if p.1 then -(n : Int) else (n : Int)
    if -(2 ^ (bits - 1)) ≤ v ∧ v ≤ 2 ^ (bits - 1) - 1 then some v else none

/-- `strconv.ParseUint(s, 10, bits)`: decimal digits only (no sign),
range-checked for the bit width. -/
def goParseUint (s : String) (bits : Nat) : Option Nat :=
  (digitsVal s.toList).bind fun n => if n < 2 ^ bits then some n else none

/-- `strconv.ParseBool`: the exact literal forms it accepts. -/
def goParseBool (s : String) : Option Bool :=
  if s = "1" ∨ s = "t" ∨ s = "T" ∨ s = "true" ∨ s = "TRUE" ∨ s = "True" then
    some true
  else if s = "0" ∨ s = "f" ∨ s = "F" ∨ s = "false" ∨ s = "FALSE" ∨ s = "False" then
    some false
  else none

/-- The failure modes of default-value resolution: `errNoDefaultValue`, the
"could not parse default value" wrap of a numeric/boolean parse failure, the
"unknown default config type" error, and a runtime panic (the slice branch of
`valueFromString` on anything the model's universe contains). -/
inductive GDErr : Type where
  | noDefault
  | parse
  | unknownKind
  | panicked
deriving DecidableEq, Repr

/-- Equality on coercion results is decidable. -/
instance : DecidableEq (Except GDErr GoVal) :=
  fun a b =>
    match a, b with
    | .error e, .error f => decidable_of_iff (e = f) (by simp)
    | .error _, .ok _ => .isFalse (by simp)
    | .ok _, .error _ => .isFalse (by simp)
    | .ok x, .ok y => decidable_of_iff (x = y) (by simp)

/-- `valueFromString(val, fld, fldval)`: kind-directed conversion of a
literal string into a value of the field's type, shared by defaulting and by
flag writes.  Each integer kind parses with its own bit width (`int` and
`uint` with 64).  The universe has no float, complex, func or `[]byte`
fields: the float cases are omitted; the complex and func cases of the
source fall through with a nil error and an invalid result, which no claim
exercises; the slice branch panics for every slice in the universe (its
`[]byte` case is unreachable here).  All remaining kinds reach the default
branch, the "unknown default config type" error. -/
def valueFromString (s : String) (fldval : GoVal) : Except GDErr GoVal :=
  match kindOf fldval with
  | .gStr => .ok (.vStr s)
  | .gI .i =>
      match goParseInt s 64 with
      | some n => .ok (.vInt .i n)
      | none => .error .parse
  | .gI .i8 =>
      match goParseInt s 8 with
      | some n => .ok (.vInt .i8 n)
      | none => .error .parse
  | .gI .i16 =>
      match goParseInt s 16 with
      | some n => .ok (.vInt .i16 n)
      | none => .error .parse
  | .gI .i32 =>
      match goParseInt s 32 with
      | some n => .ok (.vInt .i32 n)
      | none => .error .parse
  | .gI .i64 =>
      match goParseInt s 64 with
      | some n => .ok (.vInt .i64 n)
      | none => .error .parse
  | .gI .u =>
      match goParseUint s 64 with
      | some n => .ok (.vInt .u n)
      | none => .error .parse
  | .gI .u8 =>
      match goParseUint s 8 with
      | some n => .ok (.vInt .u8 n)
      | none => .error .parse
  | .gI .u16 =>
      match goParseUint s 16 with
      | some n => .ok (.vInt .u16 n)
      | none => .error .parse
  | .gI .u32 =>
      match goParseUint s 32 with
      | some n => .ok (.vInt .u32 n)
      | none => .error .parse
  | .gI .u64 =>
      match goParseUint s 64 with
      | some n => .ok (.vInt .u64 n)
      | none => .error .parse
  | .gBool =>
      match goParseBool s with
      | some b => .ok (.vBool b)
      | none => .error .parse
  | .gSlice => .error .panicked
  | .gArr => .error .unknownKind
  | .gMap => .error .unknownKind
  | .gPtr => .error .unknownKind
  | .gStruct => .error .unknownKind

/- ===== Default resolution and path lookup ===== -/

/-- `getDefaultValue(fld, fldval)`: start from the `default` tag; when an
`env` tag is present, replace the candidate wholesale by `os.Getenv` of that
name (the environment is modelled as a total function, the empty string
standing for unset, exactly as `os.Getenv` reports it); an empty candidate is
`errNoDefaultValue`; otherwise coerce with `valueFromString`. -/
def getDefaultValue (env : String → String) (fi : FieldInfo) (fldval : GoVal) :
    Except GDErr GoVal :=
  let cand := fi.dflt
  let cand := if fi.env ≠ "" then env fi.env else cand
  if cand = "" then .error .noDefault
  else valueFromString cand fldval

/-- `strings.Split(s, sep)` for a one-character separator, the only form the
package uses (splitting keys on `"."` and tags on `","`).  Implemented over
character lists so that concrete instances evaluate in the kernel. -/
def splitCharGo (sep : Char) : List Char → List Char → List String
  | [], acc => [String.mk acc.reverse]
  | ch :: r, acc =>
      if ch == sep then String.mk acc.reverse :: splitCharGo sep r []
      else splitCharGo sep r (ch :: acc)

/-- `strings.Split` on a single-character separator. -/
def splitChar (sep : Char) (s : String) : List String := splitCharGo sep s.toList []

/-- First comma-separated component of a raw tag
(`strings.Split(tag, ",")[0]`; an absent tag yields the empty string). -/
def firstPart (tag : String) : String := (splitChar ',' tag).headD ""

/-- `isCorrectLabel(key, field)`: an empty key never matches; otherwise the
key is compared with the first component of the `config`, `yaml` and `json`
tags and finally with the declared field name. -/
def isCorrectLabel (key : String) (fi : FieldInfo) : Bool :=
  if key.length == 0 then false
  else
    firstPart fi.cfg == key || firstPart fi.yaml == key ||
      firstPart fi.json == key || fi.name == key

/-- Outcome of `find`: a value, `ErrFieldNotFound`, a surfaced default
resolution error (returned together with the invalid `nilval`), or a runtime
panic. -/
inductive FOut : Type where
  | ok (v : GoVal)
  | fieldNotFound
  | defErr (e : GDErr)
  | panicked
deriving DecidableEq

/-- `find(val, keyPath)`: scan the struct fields in order for the first one
whose label matches the head segment; descend while further segments remain
(`typ.NumField()` panics when the matched field is not a struct, as it does
on a non-struct root or — via the `keyPath[0]` index — an empty path); at the
final segment return the field if it is non-zero, otherwise resolve its
default just in time: a missing default returns the zero field itself, a
resolved default is returned without being written back, and any other
resolution failure is surfaced. -/
def find (env : String → String) (v : GoVal) (path : List String) : FOut :=
  match v with
  | .vStruct fs =>
    match path with
    | [] => .panicked
    | k :: rest =>
      match fs.find? (fun fv => isCorrectLabel k fv.1) with
      | none => .fieldNotFound
      | some (fi, fv) =>
        match rest with
        | _ :: _ => find env fv rest
        | [] =>
          if ¬ isZero fv then .ok fv
          else
            match getDefaultValue env fi fv with
            | .error .noDefault => .ok fv
            | .ok dv => .ok dv
            | .error .panicked => .panicked
            | .error e => .defErr e
  | _ => .panicked
termination_by structural path

/- ===== setDefaults ===== -/

/-- Failure modes of `setDefaults`: a hard error from default resolution
(which aborts the walk), the "cannot set value" soft error (recorded, the
walk continuing), or a panic. -/
inductive SDErr : Type where
  | hard (e : GDErr)
  | cannotSet
  | panicked
deriving DecidableEq, Repr

/-- Exportedness as the source tests it: first byte of the field name in
`[64, 90]` (64 is `'@'`, which cannot start a Go identifier; field names are
never empty in Go, so the empty case is arbitrary). -/
def isExported (name : String) : Bool :=
  match name.toList with
  | c :: _ => 64 ≤ c.toNat && c.toNat ≤ 90
  | [] => false

/-- First-error accumulator (`if seterr == nil { seterr = err }`). -/
def orFirst : Option SDErr → Option SDErr → Option SDErr
  | some e, _ => some e
  | none, e => e

mutual
/-- `setDefaults(val)`: walk all fields of a struct (panicking on a
non-struct via `NumField`): recurse into struct-kind fields, folding their
error into the walk's first soft error and continuing; skip exported fields
that are already non-zero; for everything else resolve the default source,
skipping the field when there is none, aborting the whole walk on a hard
resolution error, writing the resolved value through `CanSet`-able fields
and recording "cannot set value" otherwise.  The root is assumed
addressable (as `Config.SetConfig` arranges with a pointer argument), so
`CanSet` is exactly exportedness. -/
def setDefaults (env : String → String) (v : GoVal) : GoVal × Option SDErr :=
  match v with
  | .vStruct fs =>
    let r := sdFields env fs
    (.vStruct r.1, r.2)
  | _ => (v, some .panicked)

/-- The field loop of `setDefaults`. -/
def sdFields (env : String → String) :
    List (FieldInfo × GoVal) → List (FieldInfo × GoVal) × Option SDErr
  | [] => ([], none)
  | (fi, fv) :: r =>
    if kindOf fv = .gStruct then
      match setDefaults env fv with
      | (fv', some .panicked) => ((fi, fv') :: r, some .panicked)
      | (fv', e₁) =>
        let t := sdFields env r
        ((fi, fv') :: t.1, orFirst e₁ t.2)
    else if isExported fi.name && ¬ isZero fv then
      let t := sdFields env r
      ((fi, fv) :: t.1, t.2)
    else
      match getDefaultValue env fi fv with
      | .error .noDefault =>
        let t := sdFields env r
        ((fi, fv) :: t.1, t.2)
      | .error .panicked => ((fi, fv) :: r, some .panicked)
      | .error e => ((fi, fv) :: r, some (.hard e))
      | .ok dv =>
        if isExported fi.name then
          let t := sdFields env r
          ((fi, dv) :: t.1, t.2)
        else
          let t := sdFields env r
          ((fi, fv) :: t.1, orFirst (some .cannotSet) t.2)
end

/- ===== Typed getters ===== -/

/-- An error value surfaced by a getter: `ErrFieldNotFound` or a default
resolution error. -/
inductive GErr : Type where
  | notFound
  | defErr (e : GDErr)
deriving DecidableEq, Repr

/-- `Config.get(key)`: split the key on `.` and resolve it on the schema
root (the dereferenced struct stored in `Config.elem`; calling without a
schema panics before this point and is not modelled). -/
def getKey (env : String → String) (root : GoVal) (key : String) : FOut :=
  find env root (splitChar '.' key)

/-- Outcome of an integer getter: the returned pair, or a panic. -/
inductive IntOut : Type where
  | ret (n : Int) (e : Option GErr)
  | panicked
deriving DecidableEq, Repr

/-- `GetIntErr(key)`: a `find` failure returns `(0, err)`; otherwise the
result is `int(val.Int())` — and `reflect.Value.Int` panics unless the value
has a signed integer kind. -/
def GetIntErr (env : String → String) (root : GoVal) (key : String) : IntOut :=
  match getKey env root key with
  | .panicked => .panicked
  | .fieldNotFound => .ret 0 (some .notFound)
  | .defErr e => .ret 0 (some (.defErr e))
  | .ok v =>
    match v with
    | .vInt k n => if k.signed then .ret n none else .panicked
    | _ => .panicked

/-- `GetInt(key)`: `GetIntErr` with the error discarded (`none` = the panic
propagates). -/
def GetInt (env : String → String) (root : GoVal) (key : String) : Option Int :=
  match GetIntErr env root key with
  | .ret n _ => some n
  | .panicked => none

/-- Outcome of a boolean getter. -/
inductive BoolOut : Type where
  | ret (b : Bool) (e : Option GErr)
  | panicked
deriving DecidableEq, Repr

/-- `GetBoolErr(key)`: a `find` failure returns `(false, err)`; otherwise
`val.Bool()`, which panics unless the value has kind bool. -/
def GetBoolErr (env : String → String) (root : GoVal) (key : String) : BoolOut :=
  match getKey env root key with
  | .panicked => .panicked
  | .fieldNotFound => .ret false (some .notFound)
  | .defErr e => .ret false (some (.defErr e))
  | .ok v =>
    match v with
    | .vBool b => .ret b none
    | _ => .panicked

/-- `GetBool(key)`: any `find` error yields `false`; otherwise `val.Bool()`
(`none` = the panic propagates). -/
def GetBool (env : String → String) (root : GoVal) (key : String) : Option Bool :=
  match getKey env root key with
  | .panicked => none
  | .fieldNotFound => some false
  | .defErr _ => some false
  | .ok v =>
    match v with
    | .vBool b => some b
    | _ => none

/-- Outcome of `GetIntSlice`: `ret none` is a returned nil, `ret (some v)`
returns the slice value itself (aliased, not copied). -/
inductive SliceOut : Type where
  | ret (l : Option GoVal)
  | panicked
deriving DecidableEq

/-- `GetIntSlice(key)`: every `find` error, every non-slice kind, and every
failing `[]int` type assertion collapses to a silent nil.  The assertion is
modelled as all elements having kind `int`; an empty or nil slice asserts
successfully (the model does not carry the element type of an empty
slice). -/
def GetIntSlice (env : String → String) (root : GoVal) (key : String) : SliceOut :=
  match getKey env root key with
  | .panicked => .panicked
  | .fieldNotFound => .ret none
  | .defErr _ => .ret none
  | .ok v =>
    match v with
    | .vNilSlice => .ret none
    | .vSlice i es =>
        if es.all (fun e => kindOf e = .gI .i) then .ret (some (.vSlice i es))
        else .ret none
    | _ => .ret none

/- ===== Flag binding ===== -/

/-- Return of `getFlagInfo`: the derived flag name, shorthand and usage; the
`notflag` marker; or the panic from slicing a `shorthand=` / `short=` option
with no character after the `=`. -/
inductive GFI : Type where
  | flag (name shorthand usage : String)
  | notflag
  | panicked
deriving DecidableEq, Repr

/-- `strings.Index`: first position at which `pat` occurs in `l`. -/
def subIdx (pat : List Char) : List Char → Option Nat
  | [] => if pat.isPrefixOf ([] : List Char) then some 0 else none
  | l@(_ :: r) =>
      if pat.isPrefixOf l then some 0 else (subIdx pat r).map (· + 1)

/-- `strings.Trim(p, " ")`: strip leading and trailing spaces. -/
def trimSpaces (s : String) : String :=
  String.mk (((s.toList.dropWhile (· == ' ')).reverse.dropWhile (· == ' ')).reverse)

/-- Intermediate state of the option loop of `getFlagInfo`. -/
inductive GfiStep : Type where
  | done (sh us : String)
  | notflag
  | panicked
deriving DecidableEq, Repr

/-- The option-scanning loop of `getFlagInfo` over the tail components of
the config tag: a bare `notflag` returns immediately; `usage=` takes the
rest of the component after the first occurrence; `shorthand=` / `short=`
take exactly one character after the first occurrence (panicking when the
component ends there); anything else is ignored. -/
def gfiLoop : List String → String → String → GfiStep
  | [], sh, us => .done sh us
  | p :: r, sh, us =>
    let p := trimSpaces p
    if p == "notflag" then .notflag
    else
      match subIdx ("usage=".toList) p.toList with
      | some i => gfiLoop r sh (String.mk (p.toList.drop (i + 6)))
      | none =>
        match subIdx ("shorthand=".toList) p.toList with
        | some i =>
            if p.toList.length < i + 11 then .panicked
            else gfiLoop r (String.mk ((p.toList.drop (i + 10)).take 1)) us
        | none =>
          match subIdx ("short=".toList) p.toList with
          | some i =>
              if p.toList.length < i + 7 then .panicked
              else gfiLoop r (String.mk ((p.toList.drop (i + 6)).take 1)) us
          | none => gfiLoop r sh us

/-- `getFlagInfo(field)`: the flag name is the first component of the config
tag, falling back to the declared field name when that component is empty;
the remaining components are scanned for options. -/
def getFlagInfo (fi : FieldInfo) : GFI :=
  match splitChar ',' fi.cfg with
  | [] => .notflag
  | n :: rest =>
    match gfiLoop rest "" "" with
    | .notflag => .notflag
    | .panicked => .panicked
    | .done sh us => .flag (if n == "" then fi.name else n) sh us

/-- A caller-supplied override (`NewFlagInfo` / `DisableFlag`): renames or
suppresses a flag matched by its derived name. -/
structure Resolver where
  isFlag : Bool
  rname : String
  shorthand : String
  usage : String
deriving DecidableEq, Repr

/-- A flag registered on the flag set: name and usage text (`BoolVar` and
`Var` registrations are not distinguished — both register under the same
name). -/
structure FlagEntry where
  fname : String
  fusage : String
deriving DecidableEq, Repr

mutual
/-- `bindFlags(elem, basename, set, resolvers)`: dereference a pointer
argument (a nil pointer or a non-struct makes `NumField` panic, `none`
here), then walk the fields (`bfFields`), collecting the registered flags in
declaration order. -/
def bindFlags (v : GoVal) (basename : String) (delim : Char)
    (rs : List (String × Resolver)) : Option (List FlagEntry) :=
  match v with
  | .vStruct fs => bfFields fs basename delim rs
  | .vPtr _ (.vStruct fs) => bfFields fs basename delim rs
  | _ => none

/-- The field loop of `bindFlags`: skip `notflag` fields; derive the flag
name and qualify it as `basename + delim + name` when a basename is set;
apply any override matched by the qualified name (a non-flag override skips
the field, a flag override replaces name and usage); recurse into
struct-kind fields with the qualified name as the new basename; panic on
map-kind fields; register everything else. -/
def bfFields (fs : List (FieldInfo × GoVal)) (basename : String) (delim : Char)
    (rs : List (String × Resolver)) : Option (List FlagEntry) :=
  match fs with
  | [] => some []
  | (fi, fv) :: r =>
    match getFlagInfo fi with
    | .panicked => none
    | .notflag => bfFields r basename delim rs
    | .flag n _ us =>
      let qn := if basename ≠ "" then basename ++ String.mk [delim] ++ n else n
      let ovr := rs.lookup qn
      if (match ovr with | some rv => !rv.isFlag | none => false) = true then
        bfFields r basename delim rs
      else
        let nm := match ovr with | some rv => rv.rname | none => qn
        let usg := match ovr with | some rv => rv.usage | none => us
        if kindOf fv = .gStruct then
          match bindFlags fv nm delim rs, bfFields r basename delim rs with
          | some l, some t => some (l ++ t)
          | _, _ => none
        else if kindOf fv = .gMap then none
        else (bfFields r basename delim rs).map (⟨nm, usg⟩ :: ·)
end

/- ===== Specification-side predicates used by the claims ===== -/

/-- The mathematical value of a decimal literal with an optional sign, with
no range restriction: the reference against which "no wrapped or truncated
value is ever produced" is stated. -/
def decLit (s : String) : Option Int :=
  let p := peelSign s.toList
  (digitsVal p.2).map fun n => if p.1 then -(n : Int) else (n : Int)

/-- The representable range of an integer kind. -/
def inRange (ik : IKind) (n : Int) : Prop :=
  if ik.signed then -(2 ^ (ik.width - 1)) ≤ n ∧ n ≤ 2 ^ (ik.width - 1) - 1
  else 0 ≤ n ∧ n ≤ 2 ^ ik.width - 1

/-- Membership in a kind's range is decidable. -/
instance (ik : IKind) (n : Int) : Decidable (inRange ik n) := by
  unfold inRange
  split <;> infer_instance

mutual
/-- Observational equality of two values: equal scalars, pointee-equal
pointers (object identities ignored), field-wise equal structs, element-wise
equal slices/arrays and entry-wise equal maps — with a nil collection
identified with an empty one, since the engine's accessors observe
collections only through length and lookup. -/
def normEq : GoVal → GoVal → Bool
  | .vInt k n, .vInt k' n' => k == k' && n == n'
  | .vStr s, .vStr s' => s == s'
  | .vBool b, .vBool b' => b == b'
  | .vNilPtr, .vNilPtr => true
  | .vPtr _ p, .vPtr _ q => normEq p q
  | .vStruct fs, .vStruct gs => normEqFields fs gs
  | .vNilSlice, .vNilSlice => true
  | .vNilSlice, .vSlice _ [] => true
  | .vSlice _ [], .vNilSlice => true
  | .vSlice _ es, .vSlice _ ds => normEqList es ds
  | .vArr es, .vArr ds => normEqList es ds
  | .vNilMap, .vNilMap => true
  | .vNilMap, .vMap _ [] => true
  | .vMap _ [], .vNilMap => true
  | .vMap _ es, .vMap _ ds => normEqEntries es ds
  | _, _ => false
termination_by structural v _ => v

/-- Field-wise observational equality. -/
def normEqFields : List (FieldInfo × GoVal) → List (FieldInfo × GoVal) → Bool
  | [], [] => true
  | f :: r, g :: t => f.1 == g.1 && normEq f.2 g.2 && normEqFields r t
  | _, _ => false
termination_by structural l _ => l

/-- Element-wise observational equality. -/
def normEqList : List GoVal → List GoVal → Bool
  | [], [] => true
  | v :: r, w :: t => normEq v w && normEqList r t
  | _, _ => false
termination_by structural l _ => l

/-- Entry-wise observational equality. -/
def normEqEntries : List (String × GoVal) → List (String × GoVal) → Bool
  | [], [] => true
  | f :: r, g :: t => f.1 == g.1 && normEq f.2 g.2 && normEqEntries r t
  | _, _ => false
termination_by structural l _ => l
end

mutual
/-- No slice or array value occurs anywhere in the value. -/
def noSA : GoVal → Bool
  | .vNilSlice => false
  | .vSlice _ _ => false
  | .vArr _ => false
  | .vPtr _ p => noSA p
  | .vStruct fs => noSAFields fs
  | .vMap _ es => noSAEntries es
  | _ => true

/-- `noSA` over a field list. -/
def noSAFields : List (FieldInfo × GoVal) → Bool
  | [] => true
  | fv :: r => noSA fv.2 && noSAFields r

/-- `noSA` over an entry list. -/
def noSAEntries : List (String × GoVal) → Bool
  | [] => true
  | kv :: r => noSA kv.2 && noSAEntries r
end

mutual
/-- No slice, array, or pointer-to-pointer anywhere in the value: the shapes
whose adoption by `merge` (`Set` of the source value) or copy by `copyVal`
keeps mutable state shared with the source. -/
def deepOK : GoVal → Bool
  | .vNilSlice => false
  | .vSlice _ _ => false
  | .vArr _ => false
  | .vPtr _ (.vPtr _ _) => false
  | .vPtr _ p => deepOK p
  | .vStruct fs => deepOKFields fs
  | .vMap _ es => deepOKEntries es
  | _ => true

/-- `deepOK` over a field list. -/
def deepOKFields : List (FieldInfo × GoVal) → Bool
  | [] => true
  | fv :: r => deepOK fv.2 && deepOKFields r

/-- `deepOK` over an entry list. -/
def deepOKEntries : List (String × GoVal) → Bool
  | [] => true
  | kv :: r => deepOK kv.2 && deepOKEntries r
end

/-- A map lookup returns a structurally smaller value. -/
theorem mapLookup_sizeOf :
    ∀ (es : List (String × GoVal)) (k : String) (v : GoVal),
      mapLookup es k = some v → sizeOf v < sizeOf es
  | [], _, _ => by simp [mapLookup]
  | (k', v') :: r, k, v => by
      simp only [mapLookup]
      intro h
      by_cases hk : k' == k
      · simp [hk] at h
        subst h
        simp
        omega
      · simp [hk] at h
        have := mapLookup_sizeOf r k v h
        simp
        omega

mutual
/-- The write-protection relation behind the non-overwriting claims: in
passing from `v` to `w`, no non-zero non-composite value is changed, struct
fields and pointer pointees evolve under the same relation with pointer
identities kept, and map entries are never removed or rewritten except again
under the same relation — only zero positions may receive arbitrary new
content. -/
def nzPreservedP : GoVal → GoVal → Prop
  | .vStruct fs, w =>
      match w with
      | .vStruct gs => nzpFields fs gs
      | _ => False
  | .vPtr i p, w =>
      match w with
      | .vPtr j q => i = j ∧ nzPreservedP p q
      | _ => False
  | .vMap i es, w =>
      match w with
      | .vMap j ds =>
          i = j ∧ ∀ (k : String) (v : GoVal) (hk : mapLookup es k = some v),
            ∃ v', mapLookup ds k = some v' ∧ nzPreservedP v v'
      | _ => False
  | v, w => isZero v = true ∨ w = v
termination_by v _ => sizeOf v
decreasing_by
  all_goals simp_wf
  all_goals try omega
  all_goals have h9 := mapLookup_sizeOf es k v hk
  all_goals omega

/-- `nzPreservedP`, field by field (same length, same metadata). -/
def nzpFields : List (FieldInfo × GoVal) → List (FieldInfo × GoVal) → Prop
  | [], gs => gs = []
  | (fi, fv) :: r, gs =>
      match gs with
      | g :: t => fi = g.1 ∧ nzPreservedP fv g.2 ∧ nzpFields r t
      | [] => False
termination_by l _ => sizeOf l
decreasing_by all_goals simp_wf <;> omega
end

/-- Keys of an entry list are pairwise distinct (a Go map invariant). -/
def nodupKeys : List (String × GoVal) → Bool
  | [] => true
  | (k, _) :: r => !(mapKeys r).contains k && nodupKeys r

mutual
/-- The side condition of the amended idempotence claim: maps reachable in
the source (outside slice and array elements, which merge never descends
into) have pairwise-distinct keys and only carry entries a second merge can
process without panicking: no struct-valued entries (`Set` on a field of the
unaddressable re-extracted copy panics) and no zero scalar or zero array
entries (`Set` on the unaddressable re-extracted zero value panics). -/
def idemSafe : GoVal → Bool
  | .vPtr _ p => idemSafe p
  | .vStruct fs => idemSafeFields fs
  | .vMap _ es => nodupKeys es && idemSafeEntries es
  | _ => true

/-- `idemSafe` over struct fields. -/
def idemSafeFields : List (FieldInfo × GoVal) → Bool
  | [] => true
  | fv :: r => idemSafe fv.2 && idemSafeFields r

/-- `idemSafe` over map entries, with the per-entry shape condition. -/
def idemSafeEntries : List (String × GoVal) → Bool
  | [] => true
  | kv :: r => entryOK kv.2 && idemSafeEntries r

/-- What a map entry of the source may look like for the second merge to
succeed: not a struct, and not a zero scalar or zero array; pointer and map
entries recurse (`idemSafe` inlined so that the recursion is structural). -/
def entryOK : GoVal → Bool
  | .vStruct _ => false
  | .vInt _ n => n != 0
  | .vStr s => s != ""
  | .vBool b => b
  | .vArr es => !isZeroList es
  | .vPtr _ p => idemSafe p
  | .vMap _ es => nodupKeys es && idemSafeEntries es
  | _ => true
end

/- ===== Write-protection infrastructure (C1) ===== -/

mutual
/-- `nzPreservedP` is reflexive: leaving a value alone preserves it. -/
theorem nzp_refl : ∀ (v : GoVal), nzPreservedP v v
  | .vInt k n => by simp [nzPreservedP]
  | .vStr s => by simp [nzPreservedP]
  | .vBool b => by simp [nzPreservedP]
  | .vNilPtr => by simp [nzPreservedP]
  | .vNilSlice => by simp [nzPreservedP]
  | .vSlice i es => by simp [nzPreservedP]
  | .vArr es => by simp [nzPreservedP]
  | .vNilMap => by simp [nzPreservedP]
  | .vStruct fs => by
      simp only [nzPreservedP]
      exact nzpFields_refl fs
  | .vPtr i p => by
      simp only [nzPreservedP]
      exact ⟨by trivial, nzp_refl p⟩
  | .vMap i es => by
      simp only [nzPreservedP]
      exact ⟨by trivial, fun k v hk => ⟨v, hk, nzp_refl v⟩⟩
termination_by v => sizeOf v
decreasing_by
  all_goals simp_wf
  all_goals try omega
  all_goals have h9 := mapLookup_sizeOf es k v hk
  all_goals omega

/-- `nzpFields` is reflexive. -/
theorem nzpFields_refl : ∀ (fs : List (FieldInfo × GoVal)), nzpFields fs fs
  | [] => by simp [nzpFields]
  | (fi, fv) :: r => by
      simp only [nzpFields]
      exact ⟨by trivial, nzp_refl fv, nzpFields_refl r⟩
termination_by fs => sizeOf fs
decreasing_by all_goals simp_wf <;> omega
end

/-- A zero value of non-struct kind protects nothing: any replacement
satisfies the relation (zero structs instead keep their field skeleton). -/
theorem nzp_of_zero : ∀ (v w : GoVal), isZero v = true → kindOf v ≠ .gStruct →
    nzPreservedP v w
  | .vStruct _, _ => fun _ hk => absurd rfl hk
  | .vPtr _ _, _ => fun h _ => by simp [isZero] at h
  | .vMap _ _, _ => fun h _ => by simp [isZero] at h
  | .vInt _ _, _ => fun h _ => by simp only [nzPreservedP]; exact Or.inl h
  | .vStr _, _ => fun h _ => by simp only [nzPreservedP]; exact Or.inl h
  | .vBool _, _ => fun h _ => by simp only [nzPreservedP]; exact Or.inl h
  | .vNilPtr, _ => fun h _ => by simp only [nzPreservedP]; exact Or.inl h
  | .vNilSlice, _ => fun h _ => by simp only [nzPreservedP]; exact Or.inl h
  | .vSlice _ _, _ => fun h _ => by simp only [nzPreservedP]; exact Or.inl h
  | .vArr _, _ => fun h _ => by simp only [nzPreservedP]; exact Or.inl h
  | .vNilMap, _ => fun h _ => by simp only [nzPreservedP]; exact Or.inl h

/-- A value of struct kind is a struct. -/
theorem eq_vStruct_of_kind : ∀ (v : GoVal), kindOf v = .gStruct →
    ∃ fs, v = .vStruct fs := by
  intro v h
  cases v <;> simp_all [kindOf]

/-- Inversion: a write-protected struct stays a struct with related fields. -/
theorem nzp_struct_inv (fs : List (FieldInfo × GoVal)) :
    ∀ (w : GoVal), nzPreservedP (.vStruct fs) w →
      ∃ gs, w = .vStruct gs ∧ nzpFields fs gs := by
  intro w h
  cases w <;> simp only [nzPreservedP] at h
  case vStruct gs => exact ⟨gs, rfl, h⟩

/-- Inversion: a write-protected pointer keeps its pointee identity and
protects the pointee. -/
theorem nzp_ptr_inv (i : Nat) (p : GoVal) :
    ∀ (w : GoVal), nzPreservedP (.vPtr i p) w →
      ∃ q, w = .vPtr i q ∧ nzPreservedP p q := by
  intro w h
  cases w <;> simp only [nzPreservedP] at h
  case vPtr j q =>
    obtain ⟨hij, hpq⟩ := h
    subst hij
    exact ⟨q, rfl, hpq⟩

/-- Inversion: a write-protected map keeps its identity and every entry. -/
theorem nzp_map_inv (i : Nat) (es : List (String × GoVal)) :
    ∀ (w : GoVal), nzPreservedP (.vMap i es) w →
      ∃ ds, w = .vMap i ds ∧ ∀ (k : String) (v : GoVal),
        mapLookup es k = some v →
          ∃ v', mapLookup ds k = some v' ∧ nzPreservedP v v' := by
  intro w h
  cases w <;> simp only [nzPreservedP] at h
  case vMap j ds =>
    obtain ⟨hij, hm⟩ := h
    subst hij
    exact ⟨ds, rfl, hm⟩

mutual
/-- `nzPreservedP` is transitive. -/
theorem nzp_trans : ∀ (u v w : GoVal),
    nzPreservedP u v → nzPreservedP v w → nzPreservedP u w
  | .vStruct fs, v, w => fun h1 h2 => by
      obtain ⟨gs, rfl, hfg⟩ := nzp_struct_inv fs v h1
      obtain ⟨hs, rfl, hgh⟩ := nzp_struct_inv gs w h2
      simp only [nzPreservedP]
      exact nzpFields_trans fs gs hs hfg hgh
  | .vPtr i p, v, w => fun h1 h2 => by
      obtain ⟨q, rfl, hpq⟩ := nzp_ptr_inv i p v h1
      obtain ⟨q2, rfl, hq2⟩ := nzp_ptr_inv i q w h2
      simp only [nzPreservedP]
      exact ⟨by trivial, nzp_trans p q q2 hpq hq2⟩
  | .vMap i es, v, w => fun h1 h2 => by
      obtain ⟨ds, rfl, hm1⟩ := nzp_map_inv i es v h1
      obtain ⟨ts, rfl, hm2⟩ := nzp_map_inv i ds w h2
      simp only [nzPreservedP]
      refine ⟨by trivial, ?_⟩
      intro k x hk
      obtain ⟨y, hy, hxy⟩ := hm1 k x hk
      obtain ⟨z, hz, hyz⟩ := hm2 k y hy
      exact ⟨z, hz, nzp_trans x y z hxy hyz⟩
  | .vInt ik n, v, w => fun h1 h2 => by
      simp only [nzPreservedP] at h1 ⊢
      rcases h1 with h1 | h1
      · exact Or.inl h1
      · subst h1; simp only [nzPreservedP] at h2; exact h2
  | .vStr s, v, w => fun h1 h2 => by
      simp only [nzPreservedP] at h1 ⊢
      rcases h1 with h1 | h1
      · exact Or.inl h1
      · subst h1; simp only [nzPreservedP] at h2; exact h2
  | .vBool b, v, w => fun h1 h2 => by
      simp only [nzPreservedP] at h1 ⊢
      rcases h1 with h1 | h1
      · exact Or.inl h1
      · subst h1; simp only [nzPreservedP] at h2; exact h2
  | .vNilPtr, v, w => fun h1 h2 => by
      simp only [nzPreservedP] at h1 ⊢
      rcases h1 with h1 | h1
      · exact Or.inl h1
      · subst h1; simp only [nzPreservedP] at h2; exact h2
  | .vNilSlice, v, w => fun h1 h2 => by
      simp only [nzPreservedP] at h1 ⊢
      rcases h1 with h1 | h1
      · exact Or.inl h1
      · subst h1; simp only [nzPreservedP] at h2; exact h2
  | .vSlice i es, v, w => fun h1 h2 => by
      simp only [nzPreservedP] at h1 ⊢
      rcases h1 with h1 | h1
      · exact Or.inl h1
      · subst h1; simp only [nzPreservedP] at h2; exact h2
  | .vArr es, v, w => fun h1 h2 => by
      simp only [nzPreservedP] at h1 ⊢
      rcases h1 with h1 | h1
      · exact Or.inl h1
      · subst h1; simp only [nzPreservedP] at h2; exact h2
  | .vNilMap, v, w => fun h1 h2 => by
      simp only [nzPreservedP] at h1 ⊢
      rcases h1 with h1 | h1
      · exact Or.inl h1
      · subst h1; simp only [nzPreservedP] at h2; exact h2
termination_by u _ _ => sizeOf u
decreasing_by
  all_goals simp_wf
  all_goals try omega
  all_goals have h9 := mapLookup_sizeOf es k x hk
  all_goals omega

/-- `nzpFields` is transitive. -/
theorem nzpFields_trans : ∀ (a b c : List (FieldInfo × GoVal)),
    nzpFields a b → nzpFields b c → nzpFields a c
  | [], b, c => fun h1 h2 => by
      simp only [nzpFields] at h1
      subst h1
      exact h2
  | (fi, fv) :: r, b, c => fun h1 h2 => by
      cases b with
      | nil => simp only [nzpFields] at h1
      | cons g t =>
          obtain ⟨gf, gv⟩ := g
          simp only [nzpFields] at h1
          obtain ⟨hfi, hfv, hr⟩ := h1
          cases c with
          | nil => simp only [nzpFields] at h2
          | cons g2 t2 =>
              obtain ⟨gf2, gv2⟩ := g2
              simp only [nzpFields] at h2 ⊢
              obtain ⟨hfi2, hfv2, hr2⟩ := h2
              exact ⟨hfi.trans hfi2, nzp_trans fv gv gv2 hfv hfv2,
                nzpFields_trans r t t2 hr hr2⟩
termination_by a _ _ => sizeOf a
decreasing_by all_goals simp_wf <;> omega
end

/-- Setting key `k` then looking `k` up yields the new value. -/
theorem mapLookup_mapSet_self : ∀ (es : List (String × GoVal)) (k : String)
    (nv : GoVal), mapLookup (mapSet es k nv) k = some nv
  | [], k, nv => by simp [mapSet, mapLookup]
  | (k1, v1) :: r, k, nv => by
      by_cases h : k1 = k
      · simp [mapSet, mapLookup, h]
      · simp [mapSet, mapLookup, beq_iff_eq, h]
        exact mapLookup_mapSet_self r k nv

/-- Setting key `k` leaves every other key's lookup unchanged. -/
theorem mapLookup_mapSet_ne : ∀ (es : List (String × GoVal)) (k : String)
    (nv : GoVal) (k2 : String), k ≠ k2 →
      mapLookup (mapSet es k nv) k2 = mapLookup es k2
  | [], k, nv, k2 => fun hne => by
      simp [mapSet, mapLookup, beq_iff_eq, hne]
  | (k1, v1) :: r, k, nv, k2 => fun hne => by
      by_cases h : k1 = k
      · subst h
        simp [mapSet, mapLookup, beq_iff_eq, hne]
      · by_cases h2 : k1 = k2
        · subst h2
          simp [mapSet, mapLookup, beq_iff_eq, h]
        · simp [mapSet, mapLookup, beq_iff_eq, h, h2]
          exact mapLookup_mapSet_ne r k nv k2 hne

set_option maxHeartbeats 1600000 in
mutual
/-- `merge` never rewrites a protected (non-zero, non-recursed) position of
the destination: the result destination is `nzPreservedP`-reachable from the
original, whatever the source and whatever the outcome. -/
theorem merge_nzp (adr : Bool) (loc : Option Nat) (d s : GoVal) (c : Nat) :
    nzPreservedP d (merge adr loc d s c).dst := by
  rw [merge.eq_def]
  split
  · exact nzp_refl _
  · exact nzp_refl _
  · exact nzp_refl _
  · simp only [nzPreservedP]
    exact ⟨by trivial, mergeK_nzp _ _ _ _ _⟩
  · simp only [nzPreservedP]
    exact ⟨by trivial, mergeK_nzp _ _ _ _ _⟩
  · exact nzp_refl _
  · exact mergeK_nzp _ _ _ _ _
  · exact mergeK_nzp _ _ _ _ _
termination_by (sizeOf s, 1)

/-- `mergeK` preserves the destination's protected positions. -/
theorem mergeK_nzp (adr : Bool) (loc : Option Nat) (dd ss : GoVal) (c : Nat) :
    nzPreservedP dd (mergeK adr loc dd ss c).dst := by
  rw [mergeK.eq_def]
  split
  · exact nzp_refl _
  next hkind =>
    split
    · simp only [nzPreservedP]
      exact mergeFields_nzp _ _ _ _ _
    · split
      · exact nzp_of_zero _ _ rfl (by simp [kindOf])
      · exact nzp_refl _
    · split
      · exact nzp_of_zero _ _ rfl (by simp [kindOf])
      · exact nzp_refl _
    · simp only [nzPreservedP]
      exact ⟨by trivial, mergeEntries_nzp _ _ _ _⟩
    · exact nzp_refl _
    next dD sD hp1 hp2 hp3 hp4 hp5 =>
      split
      next hz =>
        split
        · refine nzp_of_zero dd ss hz ?_
          intro hks
          have hke : kindOf dd = kindOf ss := not_not.mp hkind
          obtain ⟨dfs, rfl⟩ := eq_vStruct_of_kind dd hks
          have hss : kindOf ss = .gStruct := by rw [← hke]; exact hks
          obtain ⟨sfs, rfl⟩ := eq_vStruct_of_kind ss hss
          exact hp1 dfs sfs rfl rfl
        · exact nzp_refl _
      · exact nzp_refl _
termination_by (sizeOf ss, 0)

/-- `mergeFields` preserves protected positions of the destination fields. -/
theorem mergeFields_nzp (adr : Bool) (loc : Option Nat)
    (dfs sfs : List (FieldInfo × GoVal)) (c : Nat) :
    nzpFields dfs (mergeFields adr loc dfs sfs c).out := by
  rw [mergeFields.eq_def]
  split
  · exact nzpFields_refl _
  · simp [nzpFields]
  · simp only [nzpFields]
    exact ⟨by trivial, nzp_refl _, mergeFields_nzp _ _ _ _ _⟩
  · split
    case isFalse =>
      dsimp only
      split <;> exact nzpFields_refl _
    case isTrue =>
      dsimp only
      split
      · exact nzpFields_refl _
      · simp only [nzpFields]
        exact ⟨by trivial, nzp_of_zero _ _ rfl (by simp [kindOf]),
          mergeFields_nzp _ _ _ _ _⟩
  · split
    case isTrue =>
      dsimp only
      simp only [nzpFields]
      exact ⟨by trivial, nzp_refl _, mergeFields_nzp _ _ _ _ _⟩
    case isFalse =>
      split
      case isFalse =>
        dsimp only
        split
        · simp only [nzpFields]
          exact ⟨by trivial, merge_nzp _ _ _ _ _, nzpFields_refl _⟩
        · simp only [nzpFields]
          exact ⟨by trivial, merge_nzp _ _ _ _ _, nzpFields_refl _⟩
      case isTrue =>
        dsimp only
        split
        · simp only [nzpFields]
          exact ⟨by trivial, merge_nzp _ _ _ _ _, nzpFields_refl _⟩
        · simp only [nzpFields]
          exact ⟨by trivial, merge_nzp _ _ _ _ _, mergeFields_nzp _ _ _ _ _⟩
termination_by (sizeOf sfs, 2)

/-- `mergeEntries` keeps every destination entry present, with its value
evolving only under the write-protection relation. -/
theorem mergeEntries_nzp (mid : Nat) (dents sents : List (String × GoVal))
    (c : Nat) : ∀ (k : String) (v : GoVal), mapLookup dents k = some v →
      ∃ v', mapLookup (mergeEntries mid dents sents c).out k = some v' ∧
        nzPreservedP v v' := by
  intro k v hk
  rw [mergeEntries.eq_def]
  split
  · exact ⟨v, hk, nzp_refl v⟩
  next k1 sv srest =>
    split
    next hmiss =>
      have hne : k1 ≠ k := fun he => by rw [he, hk] at hmiss; cases hmiss
      split
      · exact ⟨v, hk, nzp_refl v⟩
      split
      · refine mergeEntries_nzp mid _ srest _ k v ?_
        rw [mapLookup_mapSet_ne dents k1 _ k hne]
        exact hk
      · refine mergeEntries_nzp mid _ srest _ k v ?_
        rw [mapLookup_mapSet_ne dents k1 _ k hne]
        exact hk
    next dv hdv =>
      dsimp only
      split
      · by_cases he : k1 = k
        · subst he
          rw [hk] at hdv
          have hv : v = dv := Option.some.inj hdv
          refine ⟨(merge false none dv sv c).dst,
            mapLookup_mapSet_self dents k1 _, ?_⟩
          rw [hv]
          exact merge_nzp false none dv sv c
        · refine ⟨v, ?_, nzp_refl v⟩
          rw [mapLookup_mapSet_ne dents k1 _ k he]
          exact hk
      · by_cases he : k1 = k
        · subst he
          obtain ⟨v', hv', hnz⟩ := mergeEntries_nzp mid
            (mapSet dents k1 (merge false none dv sv c).dst) srest
            (merge false none dv sv c).cnt k1 (merge false none dv sv c).dst
            (mapLookup_mapSet_self dents k1 _)
          rw [hk] at hdv
          have hv : v = dv := Option.some.inj hdv
          refine ⟨v', hv', nzp_trans v (merge false none dv sv c).dst v' ?_ hnz⟩
          rw [hv]
          exact merge_nzp false none dv sv c
        · have hk2 : mapLookup (mapSet dents k1 (merge false none dv sv c).dst)
              k = some v := by
            rw [mapLookup_mapSet_ne dents k1 _ k he]; exact hk
          exact mergeEntries_nzp mid _ srest _ k v hk2
termination_by (sizeOf sents, 2)
end

mutual
/-- `setDefaults` preserves protected destination positions. -/
theorem setDefaults_nzp (env : String → String) :
    ∀ (v : GoVal), nzPreservedP v (setDefaults env v).1
  | .vStruct fs => by
      simp only [setDefaults, nzPreservedP]
      exact sdFields_nzp env fs
  | .vInt k n => by simp only [setDefaults]; exact nzp_refl _
  | .vStr s => by simp only [setDefaults]; exact nzp_refl _
  | .vBool b => by simp only [setDefaults]; exact nzp_refl _
  | .vNilPtr => by simp only [setDefaults]; exact nzp_refl _
  | .vPtr i p => by simp only [setDefaults]; exact nzp_refl _
  | .vNilSlice => by simp only [setDefaults]; exact nzp_refl _
  | .vSlice i es => by simp only [setDefaults]; exact nzp_refl _
  | .vArr es => by simp only [setDefaults]; exact nzp_refl _
  | .vNilMap => by simp only [setDefaults]; exact nzp_refl _
  | .vMap i es => by simp only [setDefaults]; exact nzp_refl _

/-- The field walk of `setDefaults` preserves protected positions. -/
theorem sdFields_nzp (env : String → String) :
    ∀ (fs : List (FieldInfo × GoVal)), nzpFields fs (sdFields env fs).1
  | [] => by simp [sdFields, nzpFields]
  | (fi, fv) :: r => by
      simp only [sdFields]
      split
      next hstruct =>
        split
        next fv' heq =>
          simp only [nzpFields]
          refine ⟨by trivial, ?_, nzpFields_refl r⟩
          have h := setDefaults_nzp env fv
          rw [heq] at h
          exact h
        next fv' e1 hnp heq =>
          simp only [nzpFields]
          refine ⟨by trivial, ?_, sdFields_nzp env r⟩
          have h := setDefaults_nzp env fv
          rw [heq] at h
          exact h
      next hstruct =>
        split
        · simp only [nzpFields]
          exact ⟨by trivial, nzp_refl _, sdFields_nzp env r⟩
        next hskip =>
          split
          · simp only [nzpFields]
            exact ⟨by trivial, nzp_refl _, sdFields_nzp env r⟩
          · exact nzpFields_refl _
          · exact nzpFields_refl _
          next dv heq =>
            split
            next hexp =>
              simp only [nzpFields]
              refine ⟨by trivial, ?_, sdFields_nzp env r⟩
              have hz : isZero fv = true := by
                by_contra hzf
                apply hskip
                simp [hexp, hzf]
              exact nzp_of_zero fv dv hz hstruct
            · simp only [nzpFields]
              exact ⟨by trivial, nzp_refl _, sdFields_nzp env r⟩
end

/- ===== Claim C1: destination-wins invariant ===== -/

/-- C1 counterexample: a field holding a non-zero struct value is changed by
`merge` (its zero sub-field `B` is filled from the source) and by
`setDefaults` (its zero sub-field `B` gets its default tag), so "every
non-zero field holds exactly the same value afterwards" fails for composite
fields — both walks recurse into non-zero struct fields instead of leaving
them untouched. -/
theorem c1_counterexample :
    (merge true none
        (.vStruct [(⟨"Inner", "", "", "", "", ""⟩,
          .vStruct [(⟨"A", "", "", "", "", ""⟩, .vInt .i 1),
                    (⟨"B", "", "", "", "", ""⟩, .vInt .i 0)])])
        (.vStruct [(⟨"Inner", "", "", "", "", ""⟩,
          .vStruct [(⟨"A", "", "", "", "", ""⟩, .vInt .i 9),
                    (⟨"B", "", "", "", "", ""⟩, .vInt .i 2)])])
        0).dst
      = .vStruct [(⟨"Inner", "", "", "", "", ""⟩,
          .vStruct [(⟨"A", "", "", "", "", ""⟩, .vInt .i 1),
                    (⟨"B", "", "", "", "", ""⟩, .vInt .i 2)])]
    ∧ isZero (.vStruct [(⟨"A", "", "", "", "", ""⟩, .vInt .i 1),
                        (⟨"B", "", "", "", "", ""⟩, .vInt .i 0)]) = false
    ∧ (GoVal.vStruct [(⟨"A", "", "", "", "", ""⟩, .vInt .i 1),
                      (⟨"B", "", "", "", "", ""⟩, .vInt .i 2)])
      ≠ .vStruct [(⟨"A", "", "", "", "", ""⟩, .vInt .i 1),
                  (⟨"B", "", "", "", "", ""⟩, .vInt .i 0)]
    ∧ (setDefaults (fun _ => "")
        (.vStruct [(⟨"Inner", "", "", "", "", ""⟩,
          .vStruct [(⟨"A", "", "", "", "", ""⟩, .vInt .i 1),
                    (⟨"B", "", "", "", "7", ""⟩, .vInt .i 0)])])).1
      = .vStruct [(⟨"Inner", "", "", "", "", ""⟩,
          .vStruct [(⟨"A", "", "", "", "", ""⟩, .vInt .i 1),
                    (⟨"B", "", "", "", "7", ""⟩, .vInt .i 7)])] := by
  refine ⟨?_, by decide, by decide, by decide⟩
  simp [merge, mergeK, mergeFields, isZero, isZeroFields, kindOf]

/-- C1 (amended): `merge` and `setDefaults` never rewrite a protected
position of the destination — a non-zero scalar keeps exactly its value, a
pointer keeps its pointee identity, a map keeps all its entries — but both
recurse into non-zero composite fields (structs, pointees, map entries), so
a non-zero composite field's value can change by having its zero
sub-positions filled; only zero positions ever receive new content
(`nzPreservedP`), under every addressability, location, counter, source and
environment, whatever the outcome. -/
theorem c1_nonzero_preservation :
    (∀ (adr : Bool) (loc : Option Nat) (d s : GoVal) (c : Nat),
        nzPreservedP d (merge adr loc d s c).dst)
    ∧ (∀ (env : String → String) (v : GoVal),
        nzPreservedP v (setDefaults env v).1) :=
  ⟨fun adr loc d s c => merge_nzp adr loc d s c,
   fun env v => setDefaults_nzp env v⟩

/- ===== Copy specification (C3) ===== -/

set_option maxHeartbeats 1000000 in
mutual
/-- `normEq` is reflexive. -/
theorem normEq_refl : ∀ (v : GoVal), normEq v v = true
  | .vInt k n => by simp [normEq]
  | .vStr s => by simp [normEq]
  | .vBool b => by simp [normEq]
  | .vNilPtr => by simp [normEq]
  | .vPtr i p => by simp only [normEq]; exact normEq_refl p
  | .vStruct fs => by simp only [normEq]; exact normEqFields_refl fs
  | .vNilSlice => by simp [normEq]
  | .vSlice i es => by simp only [normEq]; exact normEqList_refl es
  | .vArr es => by simp only [normEq]; exact normEqList_refl es
  | .vNilMap => by simp [normEq]
  | .vMap i es => by simp only [normEq]; exact normEqEntries_refl es
termination_by structural v => v

/-- `normEqFields` is reflexive. -/
theorem normEqFields_refl : ∀ (fs : List (FieldInfo × GoVal)),
    normEqFields fs fs = true
  | [] => by simp [normEqFields]
  | f :: r => by
      simp only [normEqFields, Bool.and_eq_true, beq_self_eq_true, true_and]
      exact ⟨normEq_refl f.2, normEqFields_refl r⟩
termination_by structural l => l

/-- `normEqList` is reflexive. -/
theorem normEqList_refl : ∀ (es : List GoVal), normEqList es es = true
  | [] => by simp [normEqList]
  | v :: r => by
      simp only [normEqList, Bool.and_eq_true]
      exact ⟨normEq_refl v, normEqList_refl r⟩
termination_by structural l => l

/-- `normEqEntries` is reflexive. -/
theorem normEqEntries_refl : ∀ (es : List (String × GoVal)),
    normEqEntries es es = true
  | [] => by simp [normEqEntries]
  | f :: r => by
      simp only [normEqEntries, Bool.and_eq_true, beq_self_eq_true, true_and]
      exact ⟨normEq_refl f.2, normEqEntries_refl r⟩
termination_by structural l => l
end

/-- A value that is neither a pointer nor nil is not of pointer kind. -/
theorem kind_ne_gPtr : ∀ (w : GoVal), (∀ j q, w ≠ .vPtr j q) →
    w ≠ .vNilPtr → kindOf w ≠ .gPtr
  | .vPtr j q => fun h1 _ => absurd rfl (h1 j q)
  | .vNilPtr => fun _ h2 => absurd rfl h2
  | .vInt _ _ => fun _ _ => by simp [kindOf]
  | .vStr _ => fun _ _ => by simp [kindOf]
  | .vBool _ => fun _ _ => by simp [kindOf]
  | .vStruct _ => fun _ _ => by simp [kindOf]
  | .vNilSlice => fun _ _ => by simp [kindOf]
  | .vSlice _ _ => fun _ _ => by simp [kindOf]
  | .vArr _ => fun _ _ => by simp [kindOf]
  | .vNilMap => fun _ _ => by simp [kindOf]
  | .vMap _ _ => fun _ _ => by simp [kindOf]

mutual
/-- What `copyVal` guarantees on success for a non-pointer argument: the
copy is observably equal to the original, the allocation counter grows, and
every mutable object inside the copy is either reachable at or below a slice
or array element of the original (shared shallowly by `reflect.Copy`) or
freshly allocated by the copy. -/
theorem copy_spec (v : GoVal) (c : Nat) : ∀ (v' : GoVal) (c' : Nat),
    kindOf v ≠ .gPtr → copyVal v c = some (v', c') →
      normEq v v' = true ∧ c ≤ c' ∧
        ∀ i, i ∈ ids v' → i ∈ sids v ∨ (c ≤ i ∧ i < c') := by
  intro v' c' hk hcp
  rw [copyVal.eq_def] at hcp
  split at hcp
  case h_1 => exact absurd hcp (by simp)
  case h_2 => exact absurd rfl hk
  case h_3 => exact absurd rfl hk
  case h_4 => exact absurd rfl hk
  case h_5 =>
    rename_i es
    simp only [Option.some.injEq, Prod.mk.injEq] at hcp
    obtain ⟨rfl, rfl⟩ := hcp
    refine ⟨normEq_refl _, le_refl _, ?_⟩
    intro i hi
    left
    simpa [ids, sids] using hi
  case h_6 =>
    simp only [Option.some.injEq, Prod.mk.injEq] at hcp
    obtain ⟨rfl, rfl⟩ := hcp
    refine ⟨by simp [normEq], by omega, ?_⟩
    intro i hi
    simp only [ids, idsList] at hi
    rcases List.mem_cons.mp hi with rfl | hi
    · right; omega
    · simp at hi
  case h_7 =>
    rename_i sid es
    simp only [Option.some.injEq, Prod.mk.injEq] at hcp
    obtain ⟨rfl, rfl⟩ := hcp
    refine ⟨?_, by omega, ?_⟩
    · simp only [normEq]
      exact normEqList_refl es
    intro i hi
    simp only [ids] at hi
    rcases List.mem_cons.mp hi with rfl | hi
    · right; omega
    · left; simpa [sids] using hi
  case h_8 =>
    rename_i fs
    split at hcp
    · exact absurd hcp (by simp)
    next fs' c2 heq =>
      simp only [Option.some.injEq, Prod.mk.injEq] at hcp
      obtain ⟨rfl, rfl⟩ := hcp
      obtain ⟨hnq, hle, hsub⟩ := copyFields_spec fs c fs' c2 heq
      refine ⟨?_, hle, ?_⟩
      · simp only [normEq]
        exact hnq
      intro i hi
      simp only [ids] at hi
      rcases hsub i hi with h | h
      · left; simpa [sids] using h
      · right; exact h
  case h_9 =>
    simp only [Option.some.injEq, Prod.mk.injEq] at hcp
    obtain ⟨rfl, rfl⟩ := hcp
    refine ⟨by simp [normEq], by omega, ?_⟩
    intro i hi
    simp only [ids, idsEntries] at hi
    rcases List.mem_cons.mp hi with rfl | hi
    · right; omega
    · simp at hi
  case h_10 =>
    rename_i mid es
    split at hcp
    · exact absurd hcp (by simp)
    next es' c2 heq =>
      simp only [Option.some.injEq, Prod.mk.injEq] at hcp
      obtain ⟨rfl, rfl⟩ := hcp
      obtain ⟨hnq, hle, hsub⟩ := copyEntries_spec es (c + 1) es' c2 heq
      refine ⟨?_, by omega, ?_⟩
      · simp only [normEq]
        exact hnq
      intro i hi
      simp only [ids] at hi
      rcases List.mem_cons.mp hi with rfl | hi
      · right; omega
      · rcases hsub i hi with h | h
        · left; simpa [sids] using h
        · right; omega
  case h_11 =>
    rename_i hn1 hn2 hn3 hn4 hn5 hn6 hn7 hn8 hn9 hn10
    simp only [Option.some.injEq, Prod.mk.injEq] at hcp
    obtain ⟨rfl, rfl⟩ := hcp
    refine ⟨normEq_refl v, le_refl _, ?_⟩
    intro i hi
    cases v
    case vInt k n => simp [ids] at hi
    case vStr s => simp [ids] at hi
    case vBool b => simp [ids] at hi
    case vNilPtr => exact absurd rfl hn1
    case vPtr a p => exact absurd rfl (hn4 a p)
    case vArr es => exact absurd rfl (hn5 es)
    case vNilSlice => exact absurd rfl hn6
    case vSlice a es => exact absurd rfl (hn7 a es)
    case vStruct fs => exact absurd rfl (hn8 fs)
    case vNilMap => exact absurd rfl hn9
    case vMap a es => exact absurd rfl (hn10 a es)
termination_by sizeOf v

/-- `copyFields` on success: field-wise observational equality, counter
growth, freshness of all new objects outside slice/array-reachable ones. -/
theorem copyFields_spec (fs : List (FieldInfo × GoVal)) (c : Nat) :
    ∀ (fs' : List (FieldInfo × GoVal)) (c' : Nat),
      copyFields fs c = some (fs', c') →
        normEqFields fs fs' = true ∧ c ≤ c' ∧
          ∀ i, i ∈ idsFields fs' → i ∈ sidsFields fs ∨ (c ≤ i ∧ i < c') := by
  intro fs' c' hcp
  rw [copyFields.eq_def] at hcp
  split at hcp
  case h_1 =>
    simp only [Option.some.injEq, Prod.mk.injEq] at hcp
    obtain ⟨rfl, rfl⟩ := hcp
    exact ⟨by simp [normEqFields], le_refl _, by simp [idsFields]⟩
  case h_2 =>
    rename_i fi r
    split at hcp
    · exact absurd hcp (by simp)
    next r' c2 heq =>
      simp only [Option.some.injEq, Prod.mk.injEq] at hcp
      obtain ⟨rfl, rfl⟩ := hcp
      obtain ⟨hnq, hle, hsub⟩ := copyFields_spec r c r' c2 heq
      refine ⟨?_, hle, ?_⟩
      · simp only [normEqFields, Bool.and_eq_true, beq_self_eq_true, true_and]
        exact ⟨by simp [normEq], hnq⟩
      intro i hi
      simp only [idsFields, ids, List.nil_append] at hi
      rcases hsub i hi with h | h
      · left; simpa [sidsFields, sids] using h
      · right; exact h
  case h_3 => exact absurd hcp (by simp)
  case h_4 => exact absurd hcp (by simp)
  case h_5 =>
    rename_i fi x w r hnpp hnpn
    split at hcp
    · exact absurd hcp (by simp)
    next w' c1 heqw =>
      split at hcp
      · exact absurd hcp (by simp)
      next r' c2 heqr =>
        simp only [Option.some.injEq, Prod.mk.injEq] at hcp
        obtain ⟨rfl, rfl⟩ := hcp
        have hkw : kindOf w ≠ .gPtr := kind_ne_gPtr w hnpp hnpn
        obtain ⟨hnqw, hlew, hsubw⟩ := copy_spec w c w' c1 hkw heqw
        obtain ⟨hnqr, hler, hsubr⟩ := copyFields_spec r (c1 + 1) r' c2 heqr
        refine ⟨?_, by omega, ?_⟩
        · simp only [normEqFields, Bool.and_eq_true, beq_self_eq_true, true_and]
          refine ⟨?_, hnqr⟩
          simp only [normEq]
          exact hnqw
        intro i hi
        simp only [idsFields, ids, List.mem_append, List.mem_cons] at hi
        rcases hi with (rfl | hi) | hi
        · right; omega
        · rcases hsubw i hi with h | h
          · left
            simp only [sidsFields, sids, List.mem_append]
            exact Or.inl h
          · right; omega
        · rcases hsubr i hi with h | h
          · left
            simp only [sidsFields, sids, List.mem_append]
            exact Or.inr h
          · right; omega
  case h_6 =>
    rename_i fi fv r hn1 hn2 hn3 hn4
    split at hcp
    · exact absurd hcp (by simp)
    next fv' c1 heqv =>
      split at hcp
      · exact absurd hcp (by simp)
      next r' c2 heqr =>
        simp only [Option.some.injEq, Prod.mk.injEq] at hcp
        obtain ⟨rfl, rfl⟩ := hcp
        have hkv : kindOf fv ≠ .gPtr := kind_ne_gPtr fv hn4 hn1
        obtain ⟨hnqv, hlev, hsubv⟩ := copy_spec fv c fv' c1 hkv heqv
        obtain ⟨hnqr, hler, hsubr⟩ := copyFields_spec r c1 r' c2 heqr
        refine ⟨?_, by omega, ?_⟩
        · simp only [normEqFields, Bool.and_eq_true, beq_self_eq_true, true_and]
          exact ⟨hnqv, hnqr⟩
        intro i hi
        simp only [idsFields, List.mem_append] at hi
        rcases hi with hi | hi
        · rcases hsubv i hi with h | h
          · left
            simp only [sidsFields, List.mem_append]
            exact Or.inl h
          · right; omega
        · rcases hsubr i hi with h | h
          · left
            simp only [sidsFields, List.mem_append]
            exact Or.inr h
          · right; omega
termination_by sizeOf fs

/-- `copyEntries` on success: entry-wise observational equality, counter
growth, freshness outside slice/array-reachable objects. -/
theorem copyEntries_spec (es : List (String × GoVal)) (c : Nat) :
    ∀ (es' : List (String × GoVal)) (c' : Nat),
      copyEntries es c = some (es', c') →
        normEqEntries es es' = true ∧ c ≤ c' ∧
          ∀ i, i ∈ idsEntries es' → i ∈ sidsEntries es ∨ (c ≤ i ∧ i < c') := by
  intro es' c' hcp
  rw [copyEntries.eq_def] at hcp
  split at hcp
  case h_1 =>
    simp only [Option.some.injEq, Prod.mk.injEq] at hcp
    obtain ⟨rfl, rfl⟩ := hcp
    exact ⟨by simp [normEqEntries], le_refl _, by simp [idsEntries]⟩
  case h_2 => exact absurd hcp (by simp)
  case h_3 => exact absurd hcp (by simp)
  case h_4 =>
    rename_i k ev r hn1 hn2
    split at hcp
    · exact absurd hcp (by simp)
    next ev' c1 heqv =>
      split at hcp
      · exact absurd hcp (by simp)
      next r' c2 heqr =>
        simp only [Option.some.injEq, Prod.mk.injEq] at hcp
        obtain ⟨rfl, rfl⟩ := hcp
        have hkv : kindOf ev ≠ .gPtr := kind_ne_gPtr ev hn2 hn1
        obtain ⟨hnqv, hlev, hsubv⟩ := copy_spec ev c ev' c1 hkv heqv
        obtain ⟨hnqr, hler, hsubr⟩ := copyEntries_spec r c1 r' c2 heqr
        refine ⟨?_, by omega, ?_⟩
        · simp only [normEqEntries, Bool.and_eq_true, beq_self_eq_true, true_and]
          exact ⟨hnqv, hnqr⟩
        intro i hi
        simp only [idsEntries, List.mem_append] at hi
        rcases hi with hi | hi
        · rcases hsubv i hi with h | h
          · left
            simp only [sidsEntries, List.mem_append]
            exact Or.inl h
          · right; omega
        · rcases hsubr i hi with h | h
          · left
            simp only [sidsEntries, List.mem_append]
            exact Or.inr h
          · right; omega
termination_by sizeOf es
end

/- ===== Claim C3: copy is observably equal and alias-free ===== -/

/-- C3 counterexample: copying a slice copies its elements shallowly
(`reflect.Copy`), so the copy still reaches pointee object 2 of the
original — mutating through that pointer changes both; moreover copying a
nil pointer panics, and copying a map with pointer-kind entry values
panics, so "for every value v" fails outright on those. -/
theorem c3_counterexample :
    copyVal (.vSlice 1 [.vPtr 2 (.vInt .i 5)]) 10
      = some (.vSlice 10 [.vPtr 2 (.vInt .i 5)], 11)
    ∧ idsDisj (ids (.vSlice 1 [.vPtr 2 (.vInt .i 5)]))
        (ids (.vSlice 10 [.vPtr 2 (.vInt .i 5)])) = false
    ∧ copyVal .vNilPtr 0 = none
    ∧ copyVal (.vMap 1 [("k", .vPtr 2 (.vInt .i 5))]) 0 = none := by
  refine ⟨by decide, by decide, by decide, by decide⟩

/-- C3 (amended): for every non-pointer value whose copy succeeds (copying
panics on nil pointers and on maps with pointer-kind entries; a pointer
argument is first dereferenced), the copy is observably equal to the
original; every mutable object of the copy is slice/array-reachable in the
original or freshly allocated; hence when the original's objects predate the
allocation counter, the only mutable state shared between a value and its
copy lies at or below slice and array elements — outside those, mutating
the original never changes the copy. -/
theorem c3_copy_no_aliasing (v : GoVal) (c : Nat) (v' : GoVal) (c' : Nat)
    (hk : kindOf v ≠ .gPtr) (hcp : copyVal v c = some (v', c')) :
    normEq v v' = true
    ∧ (∀ i, i ∈ ids v' → i ∈ sids v ∨ (c ≤ i ∧ i < c'))
    ∧ (allLt (ids v) c = true →
        ∀ i, i ∈ ids v → i ∈ ids v' → i ∈ sids v) := by
  obtain ⟨hnq, hle, hsub⟩ := copy_spec v c v' c' hk hcp
  refine ⟨hnq, hsub, ?_⟩
  intro hlt i hiv hiv'
  rcases hsub i hiv' with h | h
  · exact h
  · exfalso
    simp only [allLt, List.all_eq_true, decide_eq_true_eq] at hlt
    have := hlt i hiv
    omega

/-- C3 witness: a struct with a pointer field, copied at counter 10: the
copy is observably equal, its pointee is the fresh object 10 (not the
original's 3), and no identity is shared. -/
theorem c3_witness :
    (kindOf (GoVal.vStruct [(⟨"A", "", "", "", "", ""⟩,
        .vPtr 3 (.vInt .i 7))]) ≠ .gPtr)
    ∧ (copyVal (.vStruct [(⟨"A", "", "", "", "", ""⟩, .vPtr 3 (.vInt .i 7))]) 10
        = some (.vStruct [(⟨"A", "", "", "", "", ""⟩, .vPtr 10 (.vInt .i 7))], 11))
    ∧ (normEq (.vStruct [(⟨"A", "", "", "", "", ""⟩, .vPtr 3 (.vInt .i 7))])
          (.vStruct [(⟨"A", "", "", "", "", ""⟩, .vPtr 10 (.vInt .i 7))]) = true
      ∧ (∀ i, i ∈ ids (GoVal.vStruct [(⟨"A", "", "", "", "", ""⟩,
            .vPtr 10 (.vInt .i 7))]) →
          i ∈ sids (GoVal.vStruct [(⟨"A", "", "", "", "", ""⟩,
            .vPtr 3 (.vInt .i 7))]) ∨ (10 ≤ i ∧ i < 11))
      ∧ (allLt (ids (GoVal.vStruct [(⟨"A", "", "", "", "", ""⟩,
            .vPtr 3 (.vInt .i 7))])) 10 = true →
          ∀ i, i ∈ ids (GoVal.vStruct [(⟨"A", "", "", "", "", ""⟩,
            .vPtr 3 (.vInt .i 7))]) →
            i ∈ ids (GoVal.vStruct [(⟨"A", "", "", "", "", ""⟩,
              .vPtr 10 (.vInt .i 7))]) →
              i ∈ sids (GoVal.vStruct [(⟨"A", "", "", "", "", ""⟩,
                .vPtr 3 (.vInt .i 7))]))) :=
  ⟨by decide, by decide,
   c3_copy_no_aliasing _ 10 _ 11 (by decide) (by decide)⟩

/- ===== Frame lemmas for merge (C4, C10) ===== -/

/-- Unfolding `deepOK` on a pointer: the pointee is not a pointer and is
itself `deepOK`. -/
theorem deepOK_vPtr : ∀ (i : Nat) (p : GoVal), deepOK (.vPtr i p) = true →
    deepOK p = true ∧ ∀ j q, p ≠ .vPtr j q := by
  intro i p h
  cases p <;> simp_all [deepOK]

mutual
/-- A `deepOK` value has no slice/array-reachable identities. -/
theorem deepOK_sids : ∀ (v : GoVal), deepOK v = true → sids v = []
  | .vNilSlice => by simp [deepOK]
  | .vSlice _ _ => by simp [deepOK]
  | .vArr _ => by simp [deepOK]
  | .vPtr i p => fun h => by
      obtain ⟨hp, _⟩ := deepOK_vPtr i p h
      simp only [sids]
      exact deepOK_sids p hp
  | .vStruct fs => fun h => by
      simp only [deepOK] at h
      simp only [sids]
      exact deepOKFields_sids fs h
  | .vMap i es => fun h => by
      simp only [deepOK] at h
      simp only [sids]
      exact deepOKEntries_sids es h
  | .vInt _ _ => fun _ => rfl
  | .vStr _ => fun _ => rfl
  | .vBool _ => fun _ => rfl
  | .vNilPtr => fun _ => rfl
  | .vNilMap => fun _ => rfl
termination_by v => sizeOf v
decreasing_by all_goals simp_wf <;> omega

/-- `deepOK_sids` over field lists. -/
theorem deepOKFields_sids : ∀ (fs : List (FieldInfo × GoVal)),
    deepOKFields fs = true → sidsFields fs = []
  | [] => fun _ => rfl
  | (fi, fv) :: r => fun h => by
      simp only [deepOKFields, Bool.and_eq_true] at h
      simp only [sidsFields]
      rw [deepOK_sids fv h.1, deepOKFields_sids r h.2]
      rfl
termination_by fs => sizeOf fs
decreasing_by all_goals simp_wf <;> omega

/-- `deepOK_sids` over entry lists. -/
theorem deepOKEntries_sids : ∀ (es : List (String × GoVal)),
    deepOKEntries es = true → sidsEntries es = []
  | [] => fun _ => rfl
  | (k1, ev) :: r => fun h => by
      simp only [deepOKEntries, Bool.and_eq_true] at h
      simp only [sidsEntries]
      rw [deepOK_sids ev h.1, deepOKEntries_sids r h.2]
      rfl
termination_by es => sizeOf es
decreasing_by all_goals simp_wf <;> omega
end

mutual
/-- A freshly zeroed value contains no mutable-object identity. -/
theorem zeroLike_ids : ∀ (v : GoVal), ids (zeroLike v) = []
  | .vInt _ _ => rfl
  | .vStr _ => rfl
  | .vBool _ => rfl
  | .vNilPtr => rfl
  | .vPtr _ _ => rfl
  | .vStruct fs => by
      simp only [zeroLike, ids]
      exact zeroLikeFields_ids fs
  | .vNilSlice => rfl
  | .vSlice _ _ => rfl
  | .vArr es => by
      simp only [zeroLike, ids]
      exact zeroLikeList_ids es
  | .vNilMap => rfl
  | .vMap _ _ => rfl
termination_by structural v => v

/-- `zeroLike_ids` over field lists. -/
theorem zeroLikeFields_ids : ∀ (fs : List (FieldInfo × GoVal)),
    idsFields (zeroLikeFields fs) = []
  | [] => rfl
  | (fi, fv) :: r => by
      simp only [zeroLikeFields, idsFields]
      rw [zeroLike_ids fv, zeroLikeFields_ids r]
      rfl
termination_by structural l => l

/-- `zeroLike_ids` over element lists. -/
theorem zeroLikeList_ids : ∀ (es : List GoVal),
    idsList (zeroLikeList es) = []
  | [] => rfl
  | v :: r => by
      simp only [zeroLikeList, idsList]
      rw [zeroLike_ids v, zeroLikeList_ids r]
      rfl
termination_by structural l => l
end

/-- Identities after a map write: old entries or the written value. -/
theorem mapSet_idsEntries : ∀ (es : List (String × GoVal)) (k : String)
    (x : GoVal) (i : Nat), i ∈ idsEntries (mapSet es k x) →
      i ∈ idsEntries es ∨ i ∈ ids x
  | [], k, x, i => fun h => by
      simp only [mapSet, idsEntries, List.append_nil] at h
      exact Or.inr h
  | (k1, v1) :: r, k, x, i => fun h => by
      simp only [mapSet] at h
      by_cases hk : k1 == k
      · simp only [hk, if_true, idsEntries] at h
        rcases List.mem_append.mp h with h | h
        · exact Or.inr h
        · exact Or.inl (by simp [idsEntries, List.mem_append]; exact Or.inr h)
      · simp only [hk, if_false, idsEntries] at h
        rcases List.mem_append.mp h with h | h
        · exact Or.inl (by simp [idsEntries, List.mem_append]; exact Or.inl h)
        · rcases mapSet_idsEntries r k x i h with h | h
          · exact Or.inl (by simp [idsEntries, List.mem_append]; exact Or.inr h)
          · exact Or.inr h

/-- A looked-up value's identities are identities of the entry list. -/
theorem mapLookup_ids : ∀ (es : List (String × GoVal)) (k : String)
    (v : GoVal), mapLookup es k = some v →
      ∀ i, i ∈ ids v → i ∈ idsEntries es
  | [], k, v => by simp [mapLookup]
  | (k1, v1) :: r, k, v => fun h i hi => by
      simp only [mapLookup] at h
      by_cases hk : k1 == k
      · simp only [hk, if_true, Option.some.injEq] at h
        subst h
        simp [idsEntries, List.mem_append]
        exact Or.inl hi
      · simp only [hk, if_false] at h
        simp [idsEntries, List.mem_append]
        exact Or.inr (mapLookup_ids r k v h i hi)

/-- A value of map kind is nil or a map. -/
theorem eq_map_of_kind : ∀ (v : GoVal), kindOf v = .gMap →
    v = .vNilMap ∨ ∃ i es, v = .vMap i es := by
  intro v h
  cases v <;> simp_all [kindOf]

/-- Copying a pointer whose pointee is `deepOK` yields only fresh objects:
the pointer is dereferenced, and the pointee's copy shares nothing since a
`deepOK` value has no slice/array-reachable identities. -/
theorem copy_ptr_inv (x : Nat) (w : GoVal) (c : Nat) (cp : GoVal) (c1 : Nat)
    (hok : deepOK (.vPtr x w) = true)
    (hcpv : copyVal (.vPtr x w) c = some (cp, c1)) :
    c ≤ c1 ∧ ∀ i, i ∈ ids cp → c ≤ i ∧ i < c1 := by
  obtain ⟨hw, hnp⟩ := deepOK_vPtr x w hok
  have main : ∀ (u : GoVal), kindOf u ≠ .gPtr → deepOK u = true →
      copyVal u c = some (cp, c1) →
      c ≤ c1 ∧ ∀ i, i ∈ ids cp → c ≤ i ∧ i < c1 := by
    intro u hk hu hc
    obtain ⟨_, hle, hsub⟩ := copy_spec u c cp c1 hk hc
    refine ⟨hle, fun i hi => ?_⟩
    rcases hsub i hi with h | h
    · rw [deepOK_sids u hu] at h
      simp at h
    · exact h
  cases w with
  | vPtr j q => exact absurd rfl (hnp j q)
  | vNilPtr =>
      simp only [copyVal, Option.some.injEq, Prod.mk.injEq] at hcpv
      obtain ⟨rfl, rfl⟩ := hcpv
      exact ⟨le_refl _, fun i hi => by simp [ids] at hi⟩
  | vInt k n => exact main _ (by simp [kindOf]) hw hcpv
  | vStr t => exact main _ (by simp [kindOf]) hw hcpv
  | vBool b => exact main _ (by simp [kindOf]) hw hcpv
  | vStruct fs => exact main _ (by simp [kindOf]) hw hcpv
  | vNilSlice => exact main _ (by simp [kindOf]) hw hcpv
  | vSlice a es => exact main _ (by simp [kindOf]) hw hcpv
  | vArr es => exact main _ (by simp [kindOf]) hw hcpv
  | vNilMap => exact main _ (by simp [kindOf]) hw hcpv
  | vMap a es => exact main _ (by simp [kindOf]) hw hcpv

set_option maxHeartbeats 1600000 in
mutual
/-- Frame specification of `merge` for a source without slices, arrays or
double pointers: the counter grows; every write goes through the
destination's enclosing object, an object reachable from the destination, or
a fresh object; and every object of the result destination is reachable from
the old destination or fresh. -/
theorem merge_fr (adr : Bool) (loc : Option Nat) (d s : GoVal) (c : Nat)
    (hok : deepOK s = true) :
    c ≤ (merge adr loc d s c).cnt
    ∧ (∀ i, i ∈ (merge adr loc d s c).wr →
        i ∈ loc.toList ∨ i ∈ ids d ∨ (c ≤ i ∧ i < (merge adr loc d s c).cnt))
    ∧ (∀ i, i ∈ ids (merge adr loc d s c).dst →
        i ∈ ids d ∨ (c ≤ i ∧ i < (merge adr loc d s c).cnt)) := by
  rw [merge.eq_def]
  split
  · exact ⟨le_refl _, fun i hi => by simp at hi, fun i hi => by simp [ids] at hi⟩
  · exact ⟨le_refl _, fun i hi => by simp at hi, fun i hi => by simp [ids] at hi⟩
  · exact ⟨le_refl _, fun i hi => by simp at hi, fun i hi => Or.inl hi⟩
  next dst2 src2 di dp si sp =>
    dsimp only
    obtain ⟨hsp, hnp⟩ := deepOK_vPtr _ _ hok
    obtain ⟨h1, h2, h3⟩ := mergeK_fr true (some di) dp sp c hsp hnp
    refine ⟨h1, ?_, ?_⟩
    · intro i hi
      rcases h2 i hi with h | h | h
      · simp only [Option.toList, List.mem_singleton] at h
        subst h
        right; left
        simp [ids]
      · right; left
        simp only [ids, List.mem_cons]
        exact Or.inr h
      · right; right; exact h
    · intro i hi
      simp only [ids, List.mem_cons] at hi
      rcases hi with rfl | hi
      · left; simp [ids]
      · rcases h3 i hi with h | h
        · left
          simp only [ids, List.mem_cons]
          exact Or.inr h
        · right; exact h
  next dst2 src2 di dp hn1 hn2 =>
    dsimp only
    obtain ⟨h1, h2, h3⟩ := mergeK_fr true (some di) dp s c hok
      (fun j q hq => hn2 j q hq)
    refine ⟨h1, ?_, ?_⟩
    · intro i hi
      rcases h2 i hi with h | h | h
      · simp only [Option.toList, List.mem_singleton] at h
        subst h
        right; left
        simp [ids]
      · right; left
        simp only [ids, List.mem_cons]
        exact Or.inr h
      · right; right; exact h
    · intro i hi
      simp only [ids, List.mem_cons] at hi
      rcases hi with rfl | hi
      · left; simp [ids]
      · rcases h3 i hi with h | h
        · left
          simp only [ids, List.mem_cons]
          exact Or.inr h
        · right; exact h
  · exact ⟨le_refl _, fun i hi => by simp at hi, fun i hi => Or.inl hi⟩
  next dst2 src2 si sp hm1 hm2 hm3 =>
    obtain ⟨hsp, hnp⟩ := deepOK_vPtr _ _ hok
    exact mergeK_fr adr loc d sp c hsp hnp
  next dst2 src2 hm1 hm2 hm3 hm4 hm5 hm6 hm7 =>
    exact mergeK_fr adr loc d s c hok (fun j q hq => hm4 j q hq)
termination_by (sizeOf s, 1)

/-- Frame specification of `mergeK`. -/
theorem mergeK_fr (adr : Bool) (loc : Option Nat) (dd ss : GoVal) (c : Nat)
    (hok : deepOK ss = true) (hnp : ∀ j q, ss ≠ .vPtr j q) :
    c ≤ (mergeK adr loc dd ss c).cnt
    ∧ (∀ i, i ∈ (mergeK adr loc dd ss c).wr →
        i ∈ loc.toList ∨ i ∈ ids dd ∨ (c ≤ i ∧ i < (mergeK adr loc dd ss c).cnt))
    ∧ (∀ i, i ∈ ids (mergeK adr loc dd ss c).dst →
        i ∈ ids dd ∨ (c ≤ i ∧ i < (mergeK adr loc dd ss c).cnt)) := by
  rw [mergeK.eq_def]
  split
  · exact ⟨le_refl _, fun i hi => by simp at hi, fun i hi => Or.inl hi⟩
  next hkind =>
    split
    case h_1 =>
      rename_i dfs sfs
      dsimp only
      simp only [deepOK] at hok
      obtain ⟨h1, h2, h3⟩ := mergeFields_fr adr loc dfs sfs c hok
      refine ⟨h1, ?_, ?_⟩
      · intro i hi
        rcases h2 i hi with h | h | h
        · exact Or.inl h
        · right; left; simpa [ids] using h
        · right; right; exact h
      · intro i hi
        simp only [ids] at hi
        rcases h3 i hi with h | h
        · left; simpa [ids] using h
        · right; exact h
    case h_2 =>
      rename_i mid2 sents
      simp only [deepOK] at hok
      split
      next hadr =>
        dsimp only
        obtain ⟨h1, h2, h3⟩ := mergeEntries_fr c [] sents (c + 1) hok
        refine ⟨by omega, ?_, ?_⟩
        · intro i hi
          rcases List.mem_append.mp hi with h | h
          · exact Or.inl h
          · rcases h2 i h with rfl | h | h
            · right; right; omega
            · simp [idsEntries] at h
            · right; right; omega
        · intro i hi
          simp only [ids, List.mem_cons] at hi
          rcases hi with rfl | hi
          · right; omega
          · rcases h3 i hi with h | h
            · simp [idsEntries] at h
            · right; omega
      · exact ⟨le_refl _, fun i hi => by simp at hi, fun i hi => by simp [ids] at hi⟩
    case h_3 =>
      split
      · dsimp only
        refine ⟨by omega, ?_, ?_⟩
        · intro i hi
          exact Or.inl hi
        · intro i hi
          simp only [ids, idsEntries] at hi
          rcases List.mem_cons.mp hi with rfl | hi
          · right; omega
          · simp at hi
      · exact ⟨le_refl _, fun i hi => by simp at hi, fun i hi => by simp [ids] at hi⟩
    case h_4 =>
      rename_i dstD2 srcD2 mid dents mid2 sents
      dsimp only
      simp only [deepOK] at hok
      obtain ⟨h1, h2, h3⟩ := mergeEntries_fr mid dents sents c hok
      refine ⟨h1, ?_, ?_⟩
      · intro i hi
        rcases h2 i hi with rfl | h | h
        · right; left; simp [ids]
        · right; left
          simp only [ids, List.mem_cons]
          exact Or.inr h
        · right; right; exact h
      · intro i hi
        simp only [ids, List.mem_cons] at hi
        rcases hi with rfl | hi
        · left; simp [ids]
        · rcases h3 i hi with h | h
          · left
            simp only [ids, List.mem_cons]
            exact Or.inr h
          · right; exact h
    case h_5 =>
      exact ⟨le_refl _, fun i hi => by simp at hi, fun i hi => Or.inl hi⟩
    next dD sD hp1 hp2 hp3 hp4 hp5 =>
      split
      next hz =>
        split
        · refine ⟨le_refl _, ?_, ?_⟩
          · intro i hi
            exact Or.inl hi
          · intro i hi
            have hss : ids ss = [] := by
              cases ss
              case vInt k n => rfl
              case vStr s => rfl
              case vBool b => rfl
              case vNilPtr => rfl
              case vNilSlice => rfl
              case vNilMap => rfl
              case vPtr j q => exact absurd rfl (hnp j q)
              case vSlice a es => simp [deepOK] at hok
              case vArr es => simp [deepOK] at hok
              case vStruct gs =>
                exfalso
                have hke : kindOf dd = kindOf (.vStruct gs) := not_not.mp hkind
                obtain ⟨dfs, rfl⟩ := eq_vStruct_of_kind dd (by rw [hke]; rfl)
                exact hp1 dfs gs rfl rfl
              case vMap a es =>
                exfalso
                have hke : kindOf dd = kindOf (.vMap a es) := not_not.mp hkind
                rcases eq_map_of_kind dd (by rw [hke]; rfl) with rfl | ⟨mi, mes, rfl⟩
                · exact hp2 a es rfl rfl
                · exact hp4 mi mes a es rfl rfl
            rw [hss] at hi
            simp at hi
        · exact ⟨le_refl _, fun i hi => by simp at hi, fun i hi => Or.inl hi⟩
      · exact ⟨le_refl _, fun i hi => by simp at hi, fun i hi => Or.inl hi⟩
termination_by (sizeOf ss, 0)

/-- Frame specification of `mergeFields`. -/
theorem mergeFields_fr (adr : Bool) (loc : Option Nat)
    (dfs sfs : List (FieldInfo × GoVal)) (c : Nat)
    (hok : deepOKFields sfs = true) :
    c ≤ (mergeFields adr loc dfs sfs c).cnt
    ∧ (∀ i, i ∈ (mergeFields adr loc dfs sfs c).wr →
        i ∈ loc.toList ∨ i ∈ idsFields dfs ∨
          (c ≤ i ∧ i < (mergeFields adr loc dfs sfs c).cnt))
    ∧ (∀ i, i ∈ idsFields (mergeFields adr loc dfs sfs c).out →
        i ∈ idsFields dfs ∨ (c ≤ i ∧ i < (mergeFields adr loc dfs sfs c).cnt)) := by
  rw [mergeFields.eq_def]
  split
  case h_1 =>
    exact ⟨le_refl _, fun i hi => by simp at hi, fun i hi => Or.inl hi⟩
  case h_2 =>
    exact ⟨le_refl _, fun i hi => by simp at hi,
      fun i hi => by simp [idsFields] at hi⟩
  case h_3 =>
    rename_i dfi cf drest fst srest
    simp only [deepOKFields, Bool.and_eq_true] at hok
    obtain ⟨h1, h2, h3⟩ := mergeFields_fr adr loc drest srest c hok.2
    refine ⟨h1, ?_, ?_⟩
    · intro i hi
      rcases h2 i hi with h | h | h
      · exact Or.inl h
      · right; left
        simp only [idsFields, List.mem_append]
        exact Or.inr h
      · right; right; exact h
    · intro i hi
      simp only [idsFields, List.mem_append] at hi
      rcases hi with hi | hi
      · left
        simp only [idsFields, List.mem_append]
        exact Or.inl hi
      · rcases h3 i hi with h | h
        · left
          simp only [idsFields, List.mem_append]
          exact Or.inr h
        · right; exact h
  case h_4 =>
    rename_i dfi drest fst si sp srest
    simp only [deepOKFields, Bool.and_eq_true] at hok
    obtain ⟨h1, h2, h3⟩ := merge_fr adr loc (.vPtr c (zeroLike sp))
      (.vPtr si sp) (c + 1) hok.1
    have hzl : ids (GoVal.vPtr c (zeroLike sp)) = [c] := by
      simp [ids, zeroLike_ids]
    rw [hzl] at h2 h3
    split
    case isFalse =>
      dsimp only
      split
      next e herr =>
        dsimp only
        refine ⟨by omega, ?_, ?_⟩
        · intro i hi
          rcases h2 i hi with h | h | h
          · exact Or.inl h
          · simp only [List.mem_singleton] at h
            right; right; omega
          · right; right; omega
        · intro i hi
          exact Or.inl hi
      next herr =>
        dsimp only
        refine ⟨by omega, ?_, ?_⟩
        · intro i hi
          rcases h2 i hi with h | h | h
          · exact Or.inl h
          · simp only [List.mem_singleton] at h
            right; right; omega
          · right; right; omega
        · intro i hi
          exact Or.inl hi
    case isTrue =>
      dsimp only
      split
      next e herr =>
        dsimp only
        refine ⟨by omega, ?_, ?_⟩
        · intro i hi
          rcases h2 i hi with h | h | h
          · exact Or.inl h
          · simp only [List.mem_singleton] at h
            right; right; omega
          · right; right; omega
        · intro i hi
          exact Or.inl hi
      next herr =>
        dsimp only
        obtain ⟨t1, t2, t3⟩ := mergeFields_fr adr loc drest srest
          (merge adr loc (.vPtr c (zeroLike sp)) (.vPtr si sp) (c + 1)).cnt hok.2
        refine ⟨by omega, ?_, ?_⟩
        · intro i hi
          rcases List.mem_append.mp hi with hi | hi
          · rcases List.mem_append.mp hi with hi | hi
            · rcases h2 i hi with h | h | h
              · exact Or.inl h
              · simp only [List.mem_singleton] at h
                right; right; omega
              · right; right; omega
            · exact Or.inl hi
          · rcases t2 i hi with h | h | h
            · exact Or.inl h
            · right; left
              simp only [idsFields, ids, List.mem_append]
              exact Or.inr h
            · right; right; omega
        · intro i hi
          simp only [idsFields, List.mem_append] at hi
          rcases hi with hi | hi
          · rcases h3 i hi with h | h
            · simp only [List.mem_singleton] at h
              right; omega
            · right; omega
          · rcases t3 i hi with h | h
            · left
              simp only [idsFields, ids, List.mem_append]
              exact Or.inr h
            · right; omega
  case h_5 =>
    rename_i dfi cf drest fst vf srest hx1 hx2
    simp only [deepOKFields, Bool.and_eq_true] at hok
    split
    case isTrue =>
      dsimp only
      obtain ⟨h1, h2, h3⟩ := mergeFields_fr adr loc drest srest c hok.2
      refine ⟨h1, ?_, ?_⟩
      · intro i hi
        rcases h2 i hi with h | h | h
        · exact Or.inl h
        · right; left
          simp only [idsFields, List.mem_append]
          exact Or.inr h
        · right; right; exact h
      · intro i hi
        simp only [idsFields, List.mem_append] at hi
        rcases hi with hi | hi
        · left
          simp only [idsFields, List.mem_append]
          exact Or.inl hi
        · rcases h3 i hi with h | h
          · left
            simp only [idsFields, List.mem_append]
            exact Or.inr h
          · right; exact h
    case isFalse =>
      obtain ⟨h1, h2, h3⟩ := merge_fr adr loc cf vf c hok.1
      split
      case isFalse =>
        dsimp only
        split
        all_goals dsimp only
        all_goals
          refine ⟨by omega, ?_, ?_⟩
        all_goals intro i hi
        case _ =>
          rcases h2 i hi with h | h | h
          · exact Or.inl h
          · right; left
            simp only [idsFields, List.mem_append]
            exact Or.inl h
          · right; right; omega
        case _ =>
          simp only [idsFields, List.mem_append] at hi
          rcases hi with hi | hi
          · rcases h3 i hi with h | h
            · left
              simp only [idsFields, List.mem_append]
              exact Or.inl h
            · right; omega
          · left
            simp only [idsFields, List.mem_append]
            exact Or.inr hi
        case _ =>
          rcases h2 i hi with h | h | h
          · exact Or.inl h
          · right; left
            simp only [idsFields, List.mem_append]
            exact Or.inl h
          · right; right; omega
        case _ =>
          simp only [idsFields, List.mem_append] at hi
          rcases hi with hi | hi
          · rcases h3 i hi with h | h
            · left
              simp only [idsFields, List.mem_append]
              exact Or.inl h
            · right; omega
          · left
            simp only [idsFields, List.mem_append]
            exact Or.inr hi
      case isTrue =>
        dsimp only
        split
        next e herr =>
          dsimp only
          refine ⟨by omega, ?_, ?_⟩
          · intro i hi
            rcases h2 i hi with h | h | h
            · exact Or.inl h
            · right; left
              simp only [idsFields, List.mem_append]
              exact Or.inl h
            · right; right; omega
          · intro i hi
            simp only [idsFields, List.mem_append] at hi
            rcases hi with hi | hi
            · rcases h3 i hi with h | h
              · left
                simp only [idsFields, List.mem_append]
                exact Or.inl h
              · right; omega
            · left
              simp only [idsFields, List.mem_append]
              exact Or.inr hi
        next herr =>
          dsimp only
          obtain ⟨t1, t2, t3⟩ := mergeFields_fr adr loc drest srest
            (merge adr loc cf vf c).cnt hok.2
          refine ⟨by omega, ?_, ?_⟩
          · intro i hi
            rcases List.mem_append.mp hi with hi | hi
            · rcases List.mem_append.mp hi with hi | hi
              · rcases h2 i hi with h | h | h
                · exact Or.inl h
                · right; left
                  simp only [idsFields, List.mem_append]
                  exact Or.inl h
                · right; right; omega
              · exact Or.inl hi
            · rcases t2 i hi with h | h | h
              · exact Or.inl h
              · right; left
                simp only [idsFields, List.mem_append]
                exact Or.inr h
              · right; right; omega
          · intro i hi
            simp only [idsFields, List.mem_append] at hi
            rcases hi with hi | hi
            · rcases h3 i hi with h | h
              · left
                simp only [idsFields, List.mem_append]
                exact Or.inl h
              · right; omega
            · rcases t3 i hi with h | h
              · left
                simp only [idsFields, List.mem_append]
                exact Or.inr h
              · right; omega
termination_by (sizeOf sfs, 2)

/-- Frame specification of `mergeEntries`. -/
theorem mergeEntries_fr (mid : Nat) (dents sents : List (String × GoVal))
    (c : Nat) (hok : deepOKEntries sents = true) :
    c ≤ (mergeEntries mid dents sents c).cnt
    ∧ (∀ i, i ∈ (mergeEntries mid dents sents c).wr →
        i = mid ∨ i ∈ idsEntries dents ∨
          (c ≤ i ∧ i < (mergeEntries mid dents sents c).cnt))
    ∧ (∀ i, i ∈ idsEntries (mergeEntries mid dents sents c).out →
        i ∈ idsEntries dents ∨ (c ≤ i ∧ i < (mergeEntries mid dents sents c).cnt)) := by
  rw [mergeEntries.eq_def]
  split
  · exact ⟨le_refl _, fun i hi => by simp at hi, fun i hi => Or.inl hi⟩
  next k1 sv srest =>
    simp only [deepOKEntries, Bool.and_eq_true] at hok
    split
    next hmiss =>
      split
      · exact ⟨le_refl _, fun i hi => by simp at hi, fun i hi => Or.inl hi⟩
      next cp c1 hcpv =>
        split
        next px pw =>
          have hid : c ≤ c1 ∧ ∀ i, i ∈ ids cp → c ≤ i ∧ i < c1 :=
            copy_ptr_inv px pw c cp c1 hok.1 hcpv
          dsimp only
          obtain ⟨t1, t2, t3⟩ := mergeEntries_fr mid
            (mapSet dents k1 (.vPtr c1 cp)) srest (c1 + 1) hok.2
          refine ⟨by omega, ?_, ?_⟩
          · intro i hi
            rcases List.mem_cons.mp hi with rfl | hi
            · exact Or.inl rfl
            · rcases t2 i hi with rfl | h | h
              · exact Or.inl rfl
              · rcases mapSet_idsEntries dents k1 _ i h with h | h
                · right; left; exact h
                · simp only [ids, List.mem_cons] at h
                  rcases h with rfl | h
                  · right; right; omega
                  · have := hid.2 i h
                    right; right; omega
              · right; right; omega
          · intro i hi
            rcases t3 i hi with h | h
            · rcases mapSet_idsEntries dents k1 _ i h with h | h
              · left; exact h
              · simp only [ids, List.mem_cons] at h
                rcases h with rfl | h
                · right; omega
                · have := hid.2 i h
                  right; omega
            · right; omega
        next hnpv =>
          have hid : c ≤ c1 ∧ ∀ i, i ∈ ids cp → c ≤ i ∧ i < c1 := by
            by_cases hsv0 : sv = .vNilPtr
            · subst hsv0
              simp [copyVal] at hcpv
            · have hkw : kindOf sv ≠ .gPtr :=
                kind_ne_gPtr sv (fun j q hq => hnpv j q hq) hsv0
              obtain ⟨_, hle, hsub⟩ := copy_spec sv c cp c1 hkw hcpv
              refine ⟨hle, fun i hi => ?_⟩
              rcases hsub i hi with h | h
              · rw [deepOK_sids sv hok.1] at h
                simp at h
              · exact h
          dsimp only
          obtain ⟨t1, t2, t3⟩ := mergeEntries_fr mid
            (mapSet dents k1 cp) srest c1 hok.2
          refine ⟨by omega, ?_, ?_⟩
          · intro i hi
            rcases List.mem_cons.mp hi with rfl | hi
            · exact Or.inl rfl
            · rcases t2 i hi with rfl | h | h
              · exact Or.inl rfl
              · rcases mapSet_idsEntries dents k1 _ i h with h | h
                · right; left; exact h
                · have := hid.2 i h
                  right; right; omega
              · right; right; omega
          · intro i hi
            rcases t3 i hi with h | h
            · rcases mapSet_idsEntries dents k1 _ i h with h | h
              · left; exact h
              · have := hid.2 i h
                right; omega
            · right; omega
    next dv hdv =>
      obtain ⟨h1, h2, h3⟩ := merge_fr false none dv sv c hok.1
      have hdvids : ∀ i, i ∈ ids dv → i ∈ idsEntries dents :=
        mapLookup_ids dents k1 dv hdv
      dsimp only
      split
      next e herr =>
        dsimp only
        refine ⟨h1, ?_, ?_⟩
        · intro i hi
          rcases h2 i hi with h | h | h
          · simp at h
          · right; left; exact hdvids i h
          · right; right; exact h
        · intro i hi
          rcases mapSet_idsEntries dents k1 _ i hi with h | h
          · left; exact h
          · rcases h3 i h with h | h
            · left; exact hdvids i h
            · right; exact h
      next herr =>
        dsimp only
        obtain ⟨t1, t2, t3⟩ := mergeEntries_fr mid
          (mapSet dents k1 (merge false none dv sv c).dst) srest
          (merge false none dv sv c).cnt hok.2
        refine ⟨by omega, ?_, ?_⟩
        · intro i hi
          rcases List.mem_append.mp hi with hi | hi
          · rcases h2 i hi with h | h | h
            · simp at h
            · right; left; exact hdvids i h
            · right; right; omega
          · rcases List.mem_cons.mp hi with rfl | hi
            · exact Or.inl rfl
            · rcases t2 i hi with rfl | h | h
              · exact Or.inl rfl
              · rcases mapSet_idsEntries dents k1 _ i h with h | h
                · right; left; exact h
                · rcases h3 i h with h | h
                  · right; left; exact hdvids i h
                  · right; right; omega
              · right; right; omega
        · intro i hi
          rcases t3 i hi with h | h
          · rcases mapSet_idsEntries dents k1 _ i h with h | h
            · left; exact h
            · rcases h3 i h with h | h
              · left; exact hdvids i h
              · right; omega
          · right; omega
termination_by (sizeOf sents, 2)
end

/- ===== Claim C4: merge adoption and aliasing ===== -/

/-- C4 counterexample: merging a slice into a zero (nil) destination field
adopts the source slice by `Set`, sharing its backing object 5 with the
source — mutating the source's slice elements afterwards changes the
destination, so the adopted value is not a deep copy. -/
theorem c4_counterexample :
    (merge true none
        (.vStruct [(⟨"S", "", "", "", "", ""⟩, .vNilSlice)])
        (.vStruct [(⟨"S", "", "", "", "", ""⟩, .vSlice 5 [.vInt .i 1])])
        10).dst
      = .vStruct [(⟨"S", "", "", "", "", ""⟩, .vSlice 5 [.vInt .i 1])]
    ∧ (merge true none
        (.vStruct [(⟨"S", "", "", "", "", ""⟩, .vNilSlice)])
        (.vStruct [(⟨"S", "", "", "", "", ""⟩, .vSlice 5 [.vInt .i 1])])
        10).err = none
    ∧ idsDisj
        (ids (GoVal.vStruct [(⟨"S", "", "", "", "", ""⟩, .vSlice 5 [.vInt .i 1])]))
        (ids (GoVal.vStruct [(⟨"S", "", "", "", "", ""⟩, .vSlice 5 [.vInt .i 1])]))
        = false := by
  refine ⟨?_, ?_, by decide⟩
  · simp [merge, mergeK, mergeFields, isZero, kindOf]
  · simp [merge, mergeK, mergeFields, isZero, kindOf]

/-- C4 (amended): when the source contains no slice, no array and no double
pointer, everything `merge` adopts is alias-free: provided the source's
objects predate the allocation counter and the destination shares nothing
with the source, no mutable object of the result destination belongs to the
source — pointer fields are adopted by allocating a fresh pointee and map
values by deep copy.  (Slices and arrays are adopted by direct assignment
and stay shared — the counterexample.) -/
theorem c4_merge_adoption (adr : Bool) (loc : Option Nat) (d s : GoVal)
    (c : Nat) (hok : deepOK s = true) (hlt : allLt (ids s) c = true)
    (hdisj : idsDisj (ids d) (ids s) = true) :
    ∀ i, i ∈ ids (merge adr loc d s c).dst → i ∉ ids s := by
  intro i hi his
  obtain ⟨h1, h2, h3⟩ := merge_fr adr loc d s c hok
  rcases h3 i hi with h | h
  · simp only [idsDisj, List.all_eq_true, decide_eq_true_eq] at hdisj
    exact hdisj i h (by simpa using his)
  · simp only [allLt, List.all_eq_true, decide_eq_true_eq] at hlt
    have := hlt i his
    omega

/-- C4 witness: a nil destination pointer field adopts the source pointer by
allocating the fresh pointee 10 and merging into it, so nothing of the
result is an object of the source. -/
theorem c4_witness :
    deepOK (GoVal.vStruct [(⟨"P", "", "", "", "", ""⟩,
        .vPtr 3 (.vInt .i 5))]) = true
    ∧ allLt (ids (GoVal.vStruct [(⟨"P", "", "", "", "", ""⟩,
        .vPtr 3 (.vInt .i 5))])) 10 = true
    ∧ idsDisj (ids (GoVal.vStruct [(⟨"P", "", "", "", "", ""⟩, .vNilPtr)]))
        (ids (GoVal.vStruct [(⟨"P", "", "", "", "", ""⟩,
          .vPtr 3 (.vInt .i 5))])) = true
    ∧ (∀ i, i ∈ ids (merge true none
        (.vStruct [(⟨"P", "", "", "", "", ""⟩, .vNilPtr)])
        (.vStruct [(⟨"P", "", "", "", "", ""⟩, .vPtr 3 (.vInt .i 5))])
        10).dst →
          i ∉ ids (GoVal.vStruct [(⟨"P", "", "", "", "", ""⟩,
            .vPtr 3 (.vInt .i 5))])) :=
  ⟨by decide, by decide, by decide,
   c4_merge_adoption true none _ _ 10 (by decide) (by decide) (by decide)⟩

/- ===== Claim C10: merge never modifies the source ===== -/

/-- C10 counterexample: when the destination and the source share a mutable
object (`d.P` and `s.Q` both point to object 7, holding `{A: 0}`), merging
fills `*d.P`'s zero field through object 7 — so after the merge `*s.Q` is
`{A: 5}`: the source was modified. -/
theorem c10_counterexample :
    (merge true none
        (.vStruct [(⟨"P", "", "", "", "", ""⟩,
            .vPtr 7 (.vStruct [(⟨"A", "", "", "", "", ""⟩, .vInt .i 0)])),
          (⟨"Q", "", "", "", "", ""⟩,
            .vPtr 9 (.vStruct [(⟨"A", "", "", "", "", ""⟩, .vInt .i 1)]))])
        (.vStruct [(⟨"P", "", "", "", "", ""⟩,
            .vPtr 8 (.vStruct [(⟨"A", "", "", "", "", ""⟩, .vInt .i 5)])),
          (⟨"Q", "", "", "", "", ""⟩,
            .vPtr 7 (.vStruct [(⟨"A", "", "", "", "", ""⟩, .vInt .i 0)]))])
        10).wr = [7, 7]
    ∧ (merge true none
        (.vStruct [(⟨"P", "", "", "", "", ""⟩,
            .vPtr 7 (.vStruct [(⟨"A", "", "", "", "", ""⟩, .vInt .i 0)])),
          (⟨"Q", "", "", "", "", ""⟩,
            .vPtr 9 (.vStruct [(⟨"A", "", "", "", "", ""⟩, .vInt .i 1)]))])
        (.vStruct [(⟨"P", "", "", "", "", ""⟩,
            .vPtr 8 (.vStruct [(⟨"A", "", "", "", "", ""⟩, .vInt .i 5)])),
          (⟨"Q", "", "", "", "", ""⟩,
            .vPtr 7 (.vStruct [(⟨"A", "", "", "", "", ""⟩, .vInt .i 0)]))])
        10).err = none
    ∧ (7 : Nat) ∈ ids (GoVal.vStruct [(⟨"P", "", "", "", "", ""⟩,
          .vPtr 8 (.vStruct [(⟨"A", "", "", "", "", ""⟩, .vInt .i 5)])),
        (⟨"Q", "", "", "", "", ""⟩,
          .vPtr 7 (.vStruct [(⟨"A", "", "", "", "", ""⟩, .vInt .i 0)]))])
    ∧ idsDisj (ids (GoVal.vStruct [(⟨"P", "", "", "", "", ""⟩,
          .vPtr 7 (.vStruct [(⟨"A", "", "", "", "", ""⟩, .vInt .i 0)])),
        (⟨"Q", "", "", "", "", ""⟩,
          .vPtr 9 (.vStruct [(⟨"A", "", "", "", "", ""⟩, .vInt .i 1)]))]))
        (ids (GoVal.vStruct [(⟨"P", "", "", "", "", ""⟩,
          .vPtr 8 (.vStruct [(⟨"A", "", "", "", "", ""⟩, .vInt .i 5)])),
        (⟨"Q", "", "", "", "", ""⟩,
          .vPtr 7 (.vStruct [(⟨"A", "", "", "", "", ""⟩, .vInt .i 0)]))]))
        = false := by
  refine ⟨?_, ?_, by decide, by decide⟩
  · simp [merge, mergeK, mergeFields, isZero, isZeroFields, kindOf]
  · simp [merge, mergeK, mergeFields, isZero, isZeroFields, kindOf]

/-- C10 (amended): every write `merge` performs goes through an object
reachable from the destination or freshly allocated, never through the
caller's root source variable; hence when the source (free of slices,
arrays and double pointers) shares no mutable object with the destination
and predates the allocation counter, no field, entry or pointee of the
source is ever written — the source is modified exactly when dst and src
alias the same object (the counterexample). -/
theorem c10_merge_source_frame (adr : Bool) (d s : GoVal) (c : Nat)
    (hok : deepOK s = true) (hlt : allLt (ids s) c = true)
    (hdisj : idsDisj (ids d) (ids s) = true) :
    ∀ i, i ∈ (merge adr none d s c).wr → i ∉ ids s := by
  intro i hi his
  obtain ⟨h1, h2, h3⟩ := merge_fr adr none d s c hok
  rcases h2 i hi with h | h | h
  · simp [Option.toList] at h
  · simp only [idsDisj, List.all_eq_true, decide_eq_true_eq] at hdisj
    exact hdisj i h (by simpa using his)
  · simp only [allLt, List.all_eq_true, decide_eq_true_eq] at hlt
    have := hlt i his
    omega

/-- C10 witness: with disjoint destination and source (objects 3 vs 7, both
below counter 10), no write of the merge touches a source object. -/
theorem c10_witness :
    deepOK (GoVal.vStruct [(⟨"P", "", "", "", "", ""⟩,
        .vPtr 7 (.vInt .i 5))]) = true
    ∧ allLt (ids (GoVal.vStruct [(⟨"P", "", "", "", "", ""⟩,
        .vPtr 7 (.vInt .i 5))])) 10 = true
    ∧ idsDisj (ids (GoVal.vStruct [(⟨"P", "", "", "", "", ""⟩,
          .vPtr 3 (.vInt .i 0))]))
        (ids (GoVal.vStruct [(⟨"P", "", "", "", "", ""⟩,
          .vPtr 7 (.vInt .i 5))])) = true
    ∧ (∀ i, i ∈ (merge true none
        (.vStruct [(⟨"P", "", "", "", "", ""⟩, .vPtr 3 (.vInt .i 0))])
        (.vStruct [(⟨"P", "", "", "", "", ""⟩, .vPtr 7 (.vInt .i 5))])
        10).wr →
          i ∉ ids (GoVal.vStruct [(⟨"P", "", "", "", "", ""⟩,
            .vPtr 7 (.vInt .i 5))])) :=
  ⟨by decide, by decide, by decide,
   c10_merge_source_frame true _ _ 10 (by decide) (by decide) (by decide)⟩

/- ===== Idempotence infrastructure (C2) ===== -/

mutual
/-- The destination `d` covers the source `s` (at addressability `adr`):
`merge adr loc d s c` returns `⟨d, c, _, none⟩` — the state a first
successful merge leaves behind, making a second merge of the same source a
no-op. -/
def covW (adr : Bool) : GoVal → GoVal → Prop
  | _, .vNilPtr => False
  | d, .vPtr _ sp =>
      match d with
      | .vPtr _ dp => covK true dp sp
      | .vNilPtr => False
      | d => covK adr d sp
  | d, s =>
      match d with
      | .vPtr _ dp => covK true dp s
      | .vNilPtr => False
      | d => covK adr d s
termination_by _ s => (sizeOf s, 1)

/-- `covW` at the kind-dispatch level (`mergeK`). -/
def covK (adr : Bool) : GoVal → GoVal → Prop
  | dd, .vStruct sfs =>
      match dd with
      | .vStruct dfs => covFields adr dfs sfs
      | _ => False
  | dd, .vMap _ sents =>
      match dd with
      | .vMap _ dents => covEntries dents sents
      | _ => False
  | dd, .vNilMap =>
      match dd with
      | .vMap _ _ => True
      | _ => False
  | dd, ss =>
      kindOf dd = kindOf ss ∧
        (isZero dd = true → adr = true ∧ ss = dd)
termination_by _ ss => (sizeOf ss, 0)

/-- `covW` field by field: a covered struct skips zero source fields and
merges the others as no-ops (which on an unaddressable struct would panic,
hence `adr = true`). -/
def covFields (adr : Bool) :
    List (FieldInfo × GoVal) → List (FieldInfo × GoVal) → Prop
  | _, [] => True
  | [], _ :: _ => False
  | (_, cf) :: drest, (_, vf) :: srest =>
      (isZero vf = true ∨ (adr = true ∧ covW adr cf vf)) ∧
        covFields adr drest srest
termination_by _ sfs => (sizeOf sfs, 2)

/-- `covW` entry by entry: every source key is present and its value is
covered without addressability. -/
def covEntries : List (String × GoVal) → List (String × GoVal) → Prop
  | _, [] => True
  | dents, (k, sv) :: srest =>
      (∃ dv, mapLookup dents k = some dv ∧ covW false dv sv) ∧
        covEntries dents srest
termination_by _ sents => (sizeOf sents, 2)
end

/-- A value not of pointer kind is neither nil nor a pointer. -/
theorem ne_ptr_of_kind : ∀ (v : GoVal), kindOf v ≠ .gPtr →
    v ≠ .vNilPtr ∧ ∀ j q, v ≠ .vPtr j q := by
  intro v h
  cases v <;> simp_all [kindOf]

/-- Rewriting a key with the value it already holds is the identity. -/
theorem mapSet_self_eq : ∀ (es : List (String × GoVal)) (k : String)
    (v : GoVal), mapLookup es k = some v → mapSet es k v = es
  | [], k, v => by simp [mapLookup]
  | (k1, v1) :: r, k, v => fun h => by
      simp only [mapLookup] at h
      by_cases hk : k1 == k
      · simp only [hk, if_true, Option.some.injEq] at h
        subst h
        simp only [mapSet, hk, if_true]
        simp only [beq_iff_eq] at hk
        rw [hk]
      · simp only [hk, Bool.false_eq_true, if_false] at h
        simp only [mapSet, hk, Bool.false_eq_true, if_false]
        rw [mapSet_self_eq r k v h]

/-- `mergeEntries` does not touch keys outside the source list. -/
theorem mergeEntries_lookup_other (mid : Nat)
    (dents sents : List (String × GoVal)) (c : Nat) (k : String)
    (hk : ¬ k ∈ mapKeys sents) :
    mapLookup (mergeEntries mid dents sents c).out k = mapLookup dents k := by
  rw [mergeEntries.eq_def]
  split
  · rfl
  next k1 sv srest =>
    have hne : k1 ≠ k := by
      intro he
      subst he
      exact hk (by simp [mapKeys])
    have hk2 : ¬ k ∈ mapKeys srest := by
      intro hm
      exact hk (by simp [mapKeys] at hm ⊢; exact Or.inr hm)
    split
    · split
      · rfl
      · split
        · dsimp only
          rw [mergeEntries_lookup_other mid _ srest _ k hk2,
            mapLookup_mapSet_ne dents k1 _ k hne]
        · dsimp only
          rw [mergeEntries_lookup_other mid _ srest _ k hk2,
            mapLookup_mapSet_ne dents k1 _ k hne]
    · dsimp only
      split
      · dsimp only
        rw [mapLookup_mapSet_ne dents k1 _ k hne]
      · dsimp only
        rw [mergeEntries_lookup_other mid _ srest _ k hk2,
          mapLookup_mapSet_ne dents k1 _ k hne]
termination_by (sizeOf sents, 2)

/-- On normal return the destination of `mergeK` has the source's kind. -/
theorem mergeK_dst_kind (adr : Bool) (loc : Option Nat) (dd ss : GoVal)
    (c : Nat) :
    kindOf (mergeK adr loc dd ss c).dst = kindOf ss
    ∨ (mergeK adr loc dd ss c).err ≠ none := by
  rw [mergeK.eq_def]
  split
  · right; simp
  next hkind =>
    split
    · left; dsimp only; simp [kindOf]
    · split
      · left; dsimp only; simp [kindOf]
      · right; simp
    · split
      · left; simp [kindOf]
      · right; simp
    · left; dsimp only; simp [kindOf]
    · left; simp [kindOf]
    next hp1 hp2 hp3 hp4 hp5 =>
      split
      next hz =>
        split
        · left; rfl
        · right; simp
      · left
        exact not_not.mp hkind

/-- Every safe map entry is itself `idemSafe`. -/
theorem entryOK_idemSafe : ∀ (v : GoVal), entryOK v = true → idemSafe v = true
  | .vStruct _ => by simp [entryOK]
  | .vInt _ _ => by simp [entryOK, idemSafe]
  | .vStr _ => by simp [entryOK, idemSafe]
  | .vBool _ => by simp [entryOK, idemSafe]
  | .vArr _ => by simp [entryOK, idemSafe]
  | .vPtr _ p => by simp [entryOK, idemSafe]
  | .vMap _ es => by simp [entryOK, idemSafe]
  | .vNilPtr => by simp [idemSafe]
  | .vNilSlice => by simp [idemSafe]
  | .vSlice _ _ => by simp [idemSafe]
  | .vNilMap => by simp [idemSafe]

/- ===== Claim C5: default source resolution ===== -/

/-- C5 counterexample: a zero `int` field carrying both `default:"89"` and
`env:"TEST_UNSET"`, with the variable unset.  The claim says the literal
default `89` is used; the code discards the default tag the moment an `env`
tag is present, reports "no default value", and `find` returns the field
still at zero. -/
theorem c5_counterexample :
    getDefaultValue (fun _ => "") ⟨"A", "", "", "", "89", "TEST_UNSET"⟩
        (.vInt .i 0) = .error .noDefault
    ∧ getDefaultValue (fun _ => "") ⟨"A", "", "", "", "89", "TEST_UNSET"⟩
        (.vInt .i 0) ≠ .ok (.vInt .i 89)
    ∧ find (fun _ => "") (.vStruct [(⟨"A", "", "", "", "89", "TEST_UNSET"⟩, .vInt .i 0)])
        ["A"] = .ok (.vInt .i 0) := by
  refine ⟨by decide, by decide, by decide⟩

/-- C5 (amended): with an `env` tag present, the named variable's value is
the only candidate: it is used whenever it is set and non-empty, and when it
is unset or empty the field is left alone with `errNoDefaultValue` even if a
`default` tag exists; the `default` literal is consulted only when there is
no `env` tag; and when neither source yields anything, a zero field is
returned at its zero value with no error. -/
theorem c5_default_source_resolution :
    ∀ (env : String → String) (fi : FieldInfo) (v : GoVal),
      (fi.env ≠ "" → env fi.env ≠ "" →
        getDefaultValue env fi v = valueFromString (env fi.env) v)
      ∧ (fi.env ≠ "" → env fi.env = "" →
        getDefaultValue env fi v = .error .noDefault)
      ∧ (fi.env = "" → fi.dflt ≠ "" →
        getDefaultValue env fi v = valueFromString fi.dflt v)
      ∧ (fi.env = "" → fi.dflt = "" →
        getDefaultValue env fi v = .error .noDefault)
      ∧ (∀ k, fi.env = "" → fi.dflt = "" → isZero v = true →
          isCorrectLabel k fi = true →
          find env (.vStruct [(fi, v)]) [k] = .ok v) := by
  intro env fi v
  refine ⟨?_, ?_, ?_, ?_, ?_⟩
  · intro h1 h2
    simp [getDefaultValue, h1, h2]
  · intro h1 h2
    simp [getDefaultValue, h1, h2]
  · intro h1 h2
    simp [getDefaultValue, h1, h2]
  · intro h1 h2
    simp [getDefaultValue, h1, h2]
  · intro k h1 h2 hz hl
    simp [find, List.find?, hl, hz, getDefaultValue, h1, h2]

/-- C5 witness: the theorem applied to the schema of the counterexample with
the `env` tag removed resolves the default literal `89`. -/
theorem c5_witness :
    getDefaultValue (fun _ => "") ⟨"A", "", "", "", "89", ""⟩ (.vInt .i 0) =
      valueFromString "89" (.vInt .i 0) := by
  have h := (c5_default_source_resolution (fun _ => "")
    ⟨"A", "", "", "", "89", ""⟩ (.vInt .i 0)).2.2.1
  exact h (by decide) (by decide)

/- ===== Claim C6: find and FieldNotFound ===== -/

/-- C6 counterexample: on the schema `{A int}` the path `"A.b"` makes `find`
recurse into the non-struct field `A` and panic in `typ.NumField()`; it does
not fail with `FieldNotFound` as the claim states. -/
theorem c6_counterexample :
    find (fun _ => "") (.vStruct [(⟨"A", "", "", "", "", ""⟩, .vInt .i 3)])
        ["A", "b"] = .panicked
    ∧ find (fun _ => "") (.vStruct [(⟨"A", "", "", "", "", ""⟩, .vInt .i 3)])
        ["A", "b"] ≠ .fieldNotFound := by
  refine ⟨by decide, by decide⟩

/-- C6 (amended): a path segment that matches no field's alias tags or
declared name fails with `FieldNotFound` — in particular the typo path
`"inner.inner.valx"` on the doubly nested schema, while the correct path
resolves the deepest field — but an intermediate segment that matches a
non-record field makes `find` panic (`NumField` on a non-struct) instead of
returning `FieldNotFound`. -/
theorem c6_find_field_not_found :
    (∀ (env : String → String) (fs : List (FieldInfo × GoVal)) (k : String)
        (rest : List String),
      (∀ fv ∈ fs, isCorrectLabel k fv.1 = false) →
      find env (.vStruct fs) (k :: rest) = .fieldNotFound)
    ∧ find (fun _ => "")
        (.vStruct [(⟨"Inner", "inner", "", "", "", ""⟩,
          .vStruct [(⟨"Inner2", "inner", "", "", "", ""⟩,
            .vStruct [(⟨"Val", "val", "", "", "", ""⟩, .vInt .i 42)])])])
        ["inner", "inner", "valx"] = .fieldNotFound
    ∧ find (fun _ => "")
        (.vStruct [(⟨"Inner", "inner", "", "", "", ""⟩,
          .vStruct [(⟨"Inner2", "inner", "", "", "", ""⟩,
            .vStruct [(⟨"Val", "val", "", "", "", ""⟩, .vInt .i 42)])])])
        ["inner", "inner", "val"] = .ok (.vInt .i 42)
    ∧ (∀ (env : String → String) (fs : List (FieldInfo × GoVal))
        (k k2 : String) (rest : List String) (fi : FieldInfo) (fv : GoVal),
      fs.find? (fun fv => isCorrectLabel k fv.1) = some (fi, fv) →
      kindOf fv ≠ .gStruct →
      find env (.vStruct fs) (k :: k2 :: rest) = .panicked) := by
  refine ⟨?_, by decide, by decide, ?_⟩
  · intro env fs k rest h
    have hn : fs.find? (fun fv => isCorrectLabel k fv.1) = none :=
      List.find?_eq_none.mpr (fun x hx => by simp [h x hx])
    simp [find, hn]
  · intro env fs k k2 rest fi fv hf hk
    simp only [find, hf]
    cases fv <;> simp [find] <;> simp [kindOf] at hk

/-- C6 witness: the unmatched-segment clause applied to a concrete one-field
schema, and the panic clause applied to the counterexample schema. -/
theorem c6_witness :
    find (fun _ => "") (.vStruct [(⟨"A", "", "", "", "", ""⟩, .vInt .i 3)])
        ["nope"] = .fieldNotFound
    ∧ find (fun _ => "") (.vStruct [(⟨"A", "", "", "", "", ""⟩, .vInt .i 3)])
        ["A", "b"] = .panicked := by
  constructor
  · exact c6_find_field_not_found.1 (fun _ => "") _ "nope" [] (by decide)
  · exact c6_find_field_not_found.2.2.2 (fun _ => "") _ "A" "b" []
      ⟨"A", "", "", "", "", ""⟩ (.vInt .i 3) (by decide) (by decide)

/- ===== Claim C7: typed getters on kind mismatch ===== -/

/-- Whether `reflect.Value.Int` accepts the value (a signed integer kind). -/
def signedIntKind : GoVal → Bool
  | .vInt k _ => k.signed
  | _ => false

/-- C7 counterexample: on the schema `{A string}` with `A = "x"`, the claim
says `GetIntErr("A")` returns `(0, WrongTypeError)` and `GetInt("A")`
returns `0` silently; both in fact panic inside `reflect.Value.Int`, and
`GetBoolErr` likewise panics inside `reflect.Value.Bool`. -/
theorem c7_counterexample :
    GetIntErr (fun _ => "") (.vStruct [(⟨"A", "", "", "", "", ""⟩, .vStr "x")]) "A"
        = .panicked
    ∧ GetInt (fun _ => "") (.vStruct [(⟨"A", "", "", "", "", ""⟩, .vStr "x")]) "A"
        = none
    ∧ GetBoolErr (fun _ => "") (.vStruct [(⟨"A", "", "", "", "", ""⟩, .vStr "x")]) "A"
        = .panicked := by
  refine ⟨by decide, by decide, by decide⟩

/-- C7 (amended): when the key resolves to a value whose kind does not match,
`GetIntErr`/`GetInt` and `GetBoolErr`/`GetBool` panic (no `WrongTypeError`
is ever produced by the getters); the slice accessor `GetIntSlice` alone
returns its zero value (nil) silently; and a key that does not resolve at
all yields the zero value together with `ErrFieldNotFound` from the
error-returning variants. -/
theorem c7_typed_getters :
    ∀ (env : String → String) (root : GoVal) (key : String),
      (∀ v, getKey env root key = .ok v → signedIntKind v = false →
        GetIntErr env root key = .panicked ∧ GetInt env root key = none)
      ∧ (∀ v, getKey env root key = .ok v → (∀ b, v ≠ .vBool b) →
        GetBoolErr env root key = .panicked ∧ GetBool env root key = none)
      ∧ (∀ v, getKey env root key = .ok v → kindOf v ≠ .gSlice →
        GetIntSlice env root key = .ret none)
      ∧ (getKey env root key = .fieldNotFound →
        GetIntErr env root key = .ret 0 (some .notFound)
        ∧ GetBoolErr env root key = .ret false (some .notFound)) := by
  intro env root key
  refine ⟨?_, ?_, ?_, ?_⟩
  · intro v hv hk
    cases v <;> simp_all [GetIntErr, GetInt, signedIntKind, hv]
  · intro v hv hb
    cases v <;> simp_all [GetBoolErr, GetBool, hv]
  · intro v hv hk
    cases v <;> simp_all [GetIntSlice, hv, kindOf]
  · intro hv
    simp [GetIntErr, GetBoolErr, hv]

/-- C7 witness: the mismatch clauses applied to the string-field schema of
the counterexample, and the missing-key clause applied to it as well. -/
theorem c7_witness :
    GetIntErr (fun _ => "") (.vStruct [(⟨"A", "", "", "", "", ""⟩, .vStr "x")]) "A"
        = .panicked
    ∧ GetIntSlice (fun _ => "") (.vStruct [(⟨"A", "", "", "", "", ""⟩, .vStr "x")]) "A"
        = .ret none
    ∧ GetIntErr (fun _ => "") (.vStruct [(⟨"A", "", "", "", "", ""⟩, .vStr "x")]) "nope"
        = .ret 0 (some .notFound) := by
  refine ⟨?_, ?_, ?_⟩
  · exact ((c7_typed_getters (fun _ => "") _ "A").1 (.vStr "x") (by decide) (by decide)).1
  · exact (c7_typed_getters (fun _ => "") _ "A").2.2.1 (.vStr "x") (by decide) (by decide)
  · exact ((c7_typed_getters (fun _ => "") _ "nope").2.2.2 (by decide)).1

/- ===== Claim C8: integer coercion widths ===== -/

/-- A run of digits never starts with a sign, so `peelSign` leaves it
alone. -/
theorem digitsVal_peel (l : List Char) (m : Nat) (h : digitsVal l = some m) :
    peelSign l = (false, l) := by
  cases l with
  | nil => simp [digitsVal] at h
  | cons c r =>
      simp only [digitsVal, digitsGo] at h
      by_cases h1 : c.isDigit
      · have h2 : c ≠ '+' := by rintro rfl; simp [Char.isDigit] at h1
        have h3 : c ≠ '-' := by rintro rfl; simp [Char.isDigit] at h1
        simp [peelSign, h2, h3]
      · simp [h1] at h

/-- Characterization of `strconv.ParseInt`: success is exactly the literal's
mathematical value landing in the signed range of the width. -/
theorem goParseInt_ok (s : String) (bits : Nat) (n : Int) :
    goParseInt s bits = some n ↔
      decLit s = some n ∧ -(2 ^ (bits - 1)) ≤ n ∧ n ≤ 2 ^ (bits - 1) - 1 := by
  simp only [goParseInt, decLit]
  cases h : digitsVal (peelSign s.toList).2 with
  | none => simp [h]
  | some m =>
      cases hp : (peelSign s.toList).1 <;> simp [h, hp]
      · constructor
        · rintro ⟨⟨a, b⟩, rfl⟩
          exact ⟨rfl, a, b⟩
        · rintro ⟨rfl, a, b⟩
          exact ⟨⟨a, b⟩, rfl⟩
      · constructor
        · rintro ⟨⟨a, b⟩, rfl⟩
          refine ⟨rfl, by linarith, by linarith⟩
        · rintro ⟨rfl, a, b⟩
          refine ⟨⟨by linarith, by linarith⟩, rfl⟩

/-- Characterization of `strconv.ParseUint`: digits only, in range. -/
theorem goParseUint_ok (s : String) (bits : Nat) (m : Nat) :
    goParseUint s bits = some m ↔ digitsVal s.toList = some m ∧ m < 2 ^ bits := by
  unfold goParseUint
  cases h : digitsVal s.toList with
  | none => simp [h]
  | some m' =>
      simp [h]
      constructor
      · rintro ⟨a, rfl⟩
        exact ⟨rfl, a⟩
      · rintro ⟨rfl, a⟩
        exact ⟨a, rfl⟩

/-- A successful unsigned parse reads the literal's mathematical value. -/
theorem decLit_of_digits (s : String) (m : Nat) (h : digitsVal s.toList = some m) :
    decLit s = some (m : Int) := by
  have h2 : digitsVal s.data = some m := h
  unfold decLit
  rw [digitsVal_peel s.toList m h]
  simp [h2]

/-- `decLit` is a function: two reads of the same literal agree. -/
theorem decLit_det (s : String) (a b : Int) (h1 : decLit s = some a)
    (h2 : decLit s = some b) : a = b := by
  rw [h1] at h2; exact Option.some.inj h2

/-- The shared argument for a signed integer kind parsed at `bits`. -/
theorem c8_case_signed (s : String) (ik : IKind) (m : Int) (bits : Nat)
    (hs : ik.signed = true) (hw : ik.width = bits)
    (he : valueFromString s (.vInt ik m) =
      (match goParseInt s bits with
       | some n => .ok (.vInt ik n)
       | none => .error .parse)) :
    (∀ u, valueFromString s (.vInt ik m) = .ok u →
      ∃ n, u = .vInt ik n ∧ decLit s = some n ∧ inRange ik n)
    ∧ (∀ n, decLit s = some n → ¬ inRange ik n →
      valueFromString s (.vInt ik m) = .error .parse) := by
  constructor
  · intro u hu
    rw [he] at hu
    rcases hq : goParseInt s bits with _ | q <;> rw [hq] at hu <;> simp at hu
    rcases (goParseInt_ok s bits q).mp hq with ⟨hd, h1, h2⟩
    refine ⟨q, hu.symm, hd, ?_⟩
    simp only [inRange, hs, hw, if_pos]
    exact ⟨h1, h2⟩
  · intro n hd hr
    rw [he]
    rcases hq : goParseInt s bits with _ | q
    · simp
    · exfalso
      rcases (goParseInt_ok s bits q).mp hq with ⟨hd', h1, h2⟩
      rcases decLit_det s q n hd' hd with rfl
      refine hr ?_
      simp only [inRange, hs, hw, if_pos]
      exact ⟨h1, h2⟩

/-- The shared argument for an unsigned integer kind parsed at `bits`. -/
theorem c8_case_unsigned (s : String) (ik : IKind) (m : Int) (bits : Nat)
    (hs : ik.signed = false) (hw : ik.width = bits)
    (he : valueFromString s (.vInt ik m) =
      (match goParseUint s bits with
       | some n => .ok (.vInt ik (n : Int))
       | none => .error .parse)) :
    (∀ u, valueFromString s (.vInt ik m) = .ok u →
      ∃ n, u = .vInt ik n ∧ decLit s = some n ∧ inRange ik n)
    ∧ (∀ n, decLit s = some n → ¬ inRange ik n →
      valueFromString s (.vInt ik m) = .error .parse) := by
  have hcast : ∀ q : Nat, q < 2 ^ bits → (0 : Int) ≤ (q : Int) ∧ (q : Int) ≤ 2 ^ bits - 1 := by
    intro q h1
    have hc : (q : Int) < 2 ^ bits := by exact_mod_cast h1
    constructor
    · exact Int.natCast_nonneg q
    · linarith
  constructor
  · intro u hu
    rw [he] at hu
    rcases hq : goParseUint s bits with _ | q <;> rw [hq] at hu <;> simp at hu
    rcases (goParseUint_ok s bits q).mp hq with ⟨hd, h1⟩
    refine ⟨(q : Int), hu.symm, decLit_of_digits s q hd, ?_⟩
    simp only [inRange, hs, if_neg, Bool.false_eq_true, hw]
    simp only [if_false]
    exact hcast q h1
  · intro n hd hr
    rw [he]
    rcases hq : goParseUint s bits with _ | q
    · simp
    · exfalso
      rcases (goParseUint_ok s bits q).mp hq with ⟨hd', h1⟩
      rcases decLit_det s (q : Int) n (decLit_of_digits s q hd') hd with rfl
      refine hr ?_
      simp only [inRange, hs, Bool.false_eq_true, hw]
      simp only [if_false]
      exact hcast q h1

/-- C8: every signed or unsigned integer kind of width 8, 16, 32, 64 or
native width coerces text by parsing with exactly its own bit width: a
successful coercion returns the literal's mathematical value, which lies in
the kind's range (never a wrapped or truncated value), and a literal whose
mathematical value falls outside the kind's range always fails with a
`ParseError`. -/
theorem c8_int_coercion_widths :
    ∀ (s : String) (ik : IKind) (m : Int),
      (∀ u, valueFromString s (.vInt ik m) = .ok u →
        ∃ n, u = .vInt ik n ∧ decLit s = some n ∧ inRange ik n)
      ∧ (∀ n, decLit s = some n → ¬ inRange ik n →
        valueFromString s (.vInt ik m) = .error .parse) := by
  intro s ik m
  cases ik with
  | i => exact c8_case_signed s .i m 64 rfl rfl rfl
  | i8 => exact c8_case_signed s .i8 m 8 rfl rfl rfl
  | i16 => exact c8_case_signed s .i16 m 16 rfl rfl rfl
  | i32 => exact c8_case_signed s .i32 m 32 rfl rfl rfl
  | i64 => exact c8_case_signed s .i64 m 64 rfl rfl rfl
  | u => exact c8_case_unsigned s .u m 64 rfl rfl rfl
  | u8 => exact c8_case_unsigned s .u8 m 8 rfl rfl rfl
  | u16 => exact c8_case_unsigned s .u16 m 16 rfl rfl rfl
  | u32 => exact c8_case_unsigned s .u32 m 32 rfl rfl rfl
  | u64 => exact c8_case_unsigned s .u64 m 64 rfl rfl rfl

/-- C8 witness: the overflow clause at the literal `"200"` against an `int8`
field (200 exceeds 127), and the exactness clause at `"89"` against an
`int` field. -/
theorem c8_witness :
    valueFromString "200" (.vInt .i8 0) = .error .parse
    ∧ (∃ n, GoVal.vInt .i 89 = .vInt .i n ∧ decLit "89" = some n ∧ inRange .i n) := by
  constructor
  · exact (c8_int_coercion_widths "200" .i8 0).2 200 (by decide) (by decide)
  · exact (c8_int_coercion_widths "89" .i 0).1 (.vInt .i 89) (by decide)

/- ===== Claim C9: flag name derivation ===== -/

/-- `strings.Split` never returns an empty list. -/
theorem splitCharGo_ne_nil (sep : Char) :
    ∀ (l acc : List Char), splitCharGo sep l acc ≠ []
  | [], acc => by simp [splitCharGo]
  | ch :: r, acc => by
      simp only [splitCharGo]
      by_cases h : ch == sep <;> simp [h, splitCharGo_ne_nil sep r]

/-- A qualified flag name is never empty. -/
theorem qualified_ne_empty (b : String) (d : Char) (n : String) (hb : b ≠ "") :
    b ++ String.mk [d] ++ n ≠ "" := by
  intro h
  have hlen := congrArg String.length h
  simp [String.length_append] at hlen

/-- Reduction of the field loop at a flag-deriving field with no overrides
and a non-empty basename. -/
theorem bfFields_cons_flag (fi : FieldInfo) (fv : GoVal)
    (r : List (FieldInfo × GoVal)) (b : String) (d : Char) (n sh us : String)
    (hb : b ≠ "") (hg : getFlagInfo fi = .flag n sh us) :
    bfFields ((fi, fv) :: r) b d [] =
      (if kindOf fv = .gStruct then
        match bindFlags fv (b ++ String.mk [d] ++ n) d [], bfFields r b d [] with
        | some l, some t => some (l ++ t)
        | _, _ => none
      else if kindOf fv = .gMap then none
      else (bfFields r b d []).map (⟨b ++ String.mk [d] ++ n, us⟩ :: ·)) := by
  simp only [bfFields, hg, List.lookup]
  rw [if_pos hb]
  simp

/-- Every flag registered while walking fields under a non-empty basename
(and no overrides) is named `basename ++ delim ++ suffix`. -/
theorem bfFields_qualified :
    ∀ (fs : List (FieldInfo × GoVal)) (b : String) (d : Char) (l : List FlagEntry),
      b ≠ "" → bfFields fs b d [] = some l →
      ∀ e ∈ l, ∃ t, e.fname = b ++ String.mk [d] ++ t
  | [], b, d, l => by
      intro hb hl e he
      simp [bfFields] at hl
      subst hl
      simp at he
  | (fi, fv) :: r, b, d, l => by
      intro hb hl e he
      cases hg : getFlagInfo fi with
      | panicked => simp [bfFields, hg] at hl
      | notflag =>
          simp only [bfFields, hg] at hl
          exact bfFields_qualified r b d l hb hl e he
      | flag n sh us =>
          rw [bfFields_cons_flag fi fv r b d n sh us hb hg] at hl
          by_cases hk : kindOf fv = .gStruct
          · rw [if_pos hk] at hl
            have hfv : ∃ fs', fv = .vStruct fs' := by
              cases fv <;> simp [kindOf] at hk <;> exact ⟨_, rfl⟩
            rcases hfv with ⟨fs', rfl⟩
            rw [show bindFlags (.vStruct fs') (b ++ String.mk [d] ++ n) d [] =
                  bfFields fs' (b ++ String.mk [d] ++ n) d [] from rfl] at hl
            rcases hbf : bfFields fs' (b ++ String.mk [d] ++ n) d [] with _ | l1 <;>
              rw [hbf] at hl
            · simp at hl
            · rcases hbr : bfFields r b d [] with _ | l2 <;> rw [hbr] at hl
              · simp at hl
              · simp at hl
                subst hl
                rcases List.mem_append.mp he with h1 | h2
                · rcases bfFields_qualified fs' (b ++ String.mk [d] ++ n) d l1
                    (qualified_ne_empty b d n hb) hbf e h1 with ⟨t, ht⟩
                  exact ⟨n ++ String.mk [d] ++ t, by rw [ht]; simp [String.append_assoc]⟩
                · exact bfFields_qualified r b d l2 hb hbr e h2
          · rw [if_neg hk] at hl
            by_cases hm : kindOf fv = .gMap
            · rw [if_pos hm] at hl; simp at hl
            · rw [if_neg hm] at hl
              rcases hbr : bfFields r b d [] with _ | l2 <;> rw [hbr] at hl <;>
                simp at hl
              subst hl
              rcases List.mem_cons.mp he with rfl | h2
              · exact ⟨n, rfl⟩
              · exact bfFields_qualified r b d l2 hb hbr e h2

/-- C9: the flag name is the config-tag's first element, falling back to the
field name when that element is empty or the tag absent; a field marked
`notflag` contributes nothing; every flag registered below a nested record
is the enclosing derived name joined with the single-character delimiter;
and binding `{A int, Name struct{Val int} config:"inner"}` at delimiter `.`
yields exactly the flags `A` and `inner.Val`. -/
theorem c9_flag_binding :
    (∀ (fi : FieldInfo) (n sh us : String), getFlagInfo fi = .flag n sh us →
      n = (if firstPart fi.cfg = "" then fi.name else firstPart fi.cfg))
    ∧ (∀ (fi : FieldInfo) (fv : GoVal) (r : List (FieldInfo × GoVal)) (b : String)
        (d : Char) (rs : List (String × Resolver)), getFlagInfo fi = .notflag →
      bfFields ((fi, fv) :: r) b d rs = bfFields r b d rs)
    ∧ (∀ (v : GoVal) (b : String) (d : Char) (l : List FlagEntry),
        b ≠ "" → bindFlags v b d [] = some l →
        ∀ e ∈ l, ∃ t, e.fname = b ++ String.mk [d] ++ t)
    ∧ bindFlags (.vStruct [(⟨"A", "", "", "", "", ""⟩, .vInt .i 0),
        (⟨"Name", "inner", "", "", "", ""⟩,
          .vStruct [(⟨"Val", "", "", "", "", ""⟩, .vInt .i 0)])]) "" '.' []
      = some [⟨"A", ""⟩, ⟨"inner.Val", ""⟩] := by
  refine ⟨?_, ?_, ?_, by decide⟩
  · intro fi n sh us h
    rcases hsp : splitChar ',' fi.cfg with _ | ⟨hd, tl⟩
    · exact absurd hsp (splitCharGo_ne_nil ',' fi.cfg.toList [])
    · simp only [getFlagInfo, hsp] at h
      rcases hloop : gfiLoop tl "" "" with ⟨sh', us'⟩ | _ | _ <;>
        simp only [hloop] at h <;> try simp at h
      rcases h with ⟨h1, _, _⟩
      rw [← h1]
      simp [firstPart, hsp]
  · intro fi fv r b d rs h
    simp [bfFields, h]
  · intro v b d l hb hl e he
    cases v with
    | vStruct fs =>
        exact bfFields_qualified fs b d l hb (by simpa [bindFlags] using hl) e he
    | vPtr id p =>
        cases p with
        | vStruct fs =>
            exact bfFields_qualified fs b d l hb (by simpa [bindFlags] using hl) e he
        | vInt k n => simp [bindFlags] at hl
        | vStr s => simp [bindFlags] at hl
        | vBool bb => simp [bindFlags] at hl
        | vNilPtr => simp [bindFlags] at hl
        | vPtr i2 p2 => simp [bindFlags] at hl
        | vNilSlice => simp [bindFlags] at hl
        | vSlice i2 es => simp [bindFlags] at hl
        | vArr es => simp [bindFlags] at hl
        | vNilMap => simp [bindFlags] at hl
        | vMap i2 es => simp [bindFlags] at hl
    | vInt k n => simp [bindFlags] at hl
    | vStr st => simp [bindFlags] at hl
    | vBool bb => simp [bindFlags] at hl
    | vNilPtr => simp [bindFlags] at hl
    | vNilSlice => simp [bindFlags] at hl
    | vSlice i2 es => simp [bindFlags] at hl
    | vArr es => simp [bindFlags] at hl
    | vNilMap => simp [bindFlags] at hl
    | vMap i2 es => simp [bindFlags] at hl

/-- C9 witness: the theorem's clauses at concrete inputs — name fallback for
an untagged field, the `notflag` skip, and the nested-name qualification for
the entry produced under basename `inner`. -/
theorem c9_witness :
    ("A" : String) = (if firstPart "" = "" then "A" else firstPart "")
    ∧ bfFields [(⟨"F", "x,notflag", "", "", "", ""⟩, .vInt .i 0)] "" '.' [] =
        bfFields [] "" '.' []
    ∧ (∃ t, ("inner.Val" : String) = "inner" ++ String.mk ['.'] ++ t) := by
  refine ⟨?_, ?_, ?_⟩
  · exact c9_flag_binding.1 ⟨"A", "", "", "", "", ""⟩ "A" "" "" (by decide)
  · exact c9_flag_binding.2.1 ⟨"F", "x,notflag", "", "", "", ""⟩ (.vInt .i 0) [] "" '.' []
      (by decide)
  · exact c9_flag_binding.2.2.1 (.vStruct [(⟨"Val", "", "", "", "", ""⟩, .vInt .i 0)])
      "inner" '.' [⟨"inner.Val", ""⟩] (by decide) (by decide) ⟨"inner.Val", ""⟩
      (by simp)

end Config
